import Mathlib

/-!
# Verification of the HubSpot activity-data pipeline

Shallow embedding of the normalization / deduplication / metric-aggregation
pipeline of the `hubspot-analytics` repository, together with proofs and
refutations of the specification claims C1..C10.

DataFrames are modelled as Lean structures carrying the cells of the columns
each function reads or writes, plus Booleans recording which optional columns
are present.  A pandas `NaN` cell is `Option.none`.  External pandas
collaborators (`pd.to_datetime` string parsing, period bucketing, ...) are
modelled as explicit function parameters, since their behaviour is library
code, not code of this repository.
-/

/-! ## Python string primitives used throughout the source -/

/-- Python `str.strip()`: remove leading and trailing whitespace. -/
def pstrip (s : String) : String :=
  ⟨(s.data.dropWhile Char.isWhitespace).reverse.dropWhile Char.isWhitespace |>.reverse⟩

/-- Python `s.startswith(p)`. -/
def pstarts (s p : String) : Bool := p.data.isPrefixOf s.data

/-- Python `s.endswith(p)`. -/
def pends (s p : String) : Bool := p.data.isSuffixOf s.data

/-- First-match association-list lookup, the model of a Python `dict` built
from distinct keys (`d.get(k)`). -/
def alookup {β : Type} (l : List (String × β)) (k : String) : Option β :=
  match l with
  | [] => none
  | (k', v) :: rest => if k = k' then some v else alookup rest k

/-- `d.get(k, default)`. -/
def alookupD {β : Type} (l : List (String × β)) (k : String) (d : β) : β :=
  (alookup l k).getD d

theorem alookup_isSome_iff_mem_keys {β : Type} (l : List (String × β)) (k : String) :
    (alookup l k).isSome = true ↔ k ∈ l.map Prod.fst := by
  induction l with
  | nil => simp [alookup]
  | cons p rest ih =>
    cases p with
    | mk k' v =>
      by_cases h : k = k'
      · subst h; simp [alookup]
      · simp [alookup, h, ih]

theorem alookup_eq_some_iff_mem {β : Type} (l : List (String × β)) (k : String) :
    (∃ v, alookup l k = some v) ↔ k ∈ l.map Prod.fst := by
  rw [← alookup_isSome_iff_mem_keys]
  constructor
  · rintro ⟨v, hv⟩; simp [hv]
  · intro h; exact Option.isSome_iff_exists.mp h

/-! ## Static configuration from `src/parsing/filters.py` -/

def REPS_IN_SCOPE : List String :=
  ["Brad Sherman", "Lance Mitton", "Dave Borkowski",
   "Jake Lynch", "Alex Gonzalez", "Owen Labombard"]

def TERMINAL_STAGES : List (String × String) :=
  [("Closed Won", "CLOSED_WON"),
   ("Closed Lost", "CLOSED_LOST"),
   ("NCR", "NCR"),
   ("Sales Order Created in NS", "SALES_ORDER_CREATED")]

def WIN_STAGES : List String := ["Closed Won", "Sales Order Created in NS"]

def OWNER_CANDIDATES : List String :=
  ["hubspot_owner_name", "activity_assigned_to", "full_name",
   "opp_owner", "deal_owner", "activity_created_by"]

/-! ## C1: terminal-stage tagging (`tag_terminal_stages`)

A deal table is modelled by its `deal_stage` column: a presence flag
(`safe_column` substitutes an all-NaN series when the column is absent) and
the per-row cells.  `tag_terminal_stages` adds `is_terminal` (pandas
`stage.isin(TERMINAL_STAGES.keys())`) and `terminal_status`
(`stage.map(TERMINAL_STAGES)`); on an empty frame it returns the frame, which
coincides with mapping over zero rows. -/

structure DealRow where
  deal_stage : Option String
  deriving Repr, DecidableEq

structure DealTable where
  has_stage_col : Bool
  rows : List DealRow
  deriving Repr, DecidableEq

structure TaggedDeal where
  deal_stage : Option String
  is_terminal : Bool
  terminal_status : Option String
  deriving Repr, DecidableEq

/-- The series `safe_column(df, stage_col)` at one row: the cell when the
column exists, NaN otherwise. -/
def stageCell (t : DealTable) (r : DealRow) : Option String :=
  if t.has_stage_col then r.deal_stage else none

def tag_terminal_stages (t : DealTable) : List TaggedDeal :=
  t.rows.map fun r =>
    let s := stageCell t r
    { deal_stage := s
      is_terminal := match s with
        | none => false
        | some v => decide (v ∈ TERMINAL_STAGES.map Prod.fst)
      terminal_status := s.bind (alookup TERMINAL_STAGES) }

/-- **C1** For every deal table, `tag_terminal_stages` sets, on every row,
`is_terminal` to true exactly when the row's `deal_stage` is a key of the
Terminal Stage Table, `terminal_status` to the table's value for that stage
(none when the stage is not a key); hence a row is terminal iff its
`terminal_status` is non-null. -/
theorem claim_C1 (t : DealTable) (d : TaggedDeal)
    (hd : d ∈ tag_terminal_stages t) :
    (d.is_terminal = true ↔
      ∃ v, d.deal_stage = some v ∧ v ∈ TERMINAL_STAGES.map Prod.fst)
    ∧ d.terminal_status = d.deal_stage.bind (alookup TERMINAL_STAGES)
    ∧ (d.is_terminal = true ↔ d.terminal_status ≠ none) := by
  rcases List.mem_map.mp hd with ⟨r, _, rfl⟩
  refine ⟨?_, rfl, ?_⟩
  · cases h : stageCell t r with
    | none => simp [h]
    | some v =>
      simp only [h]
      constructor
      · intro hc
        exact ⟨v, rfl, by simpa using of_decide_eq_true hc⟩
      · rintro ⟨v', hv', hm⟩
        cases hv'
        exact decide_eq_true hm
  · cases h : stageCell t r with
    | none => simp [h]
    | some v =>
      simp only [h, Option.bind_some, ne_eq]
      rw [decide_eq_true_eq, ← alookup_isSome_iff_mem_keys]
      cases halt : alookup TERMINAL_STAGES v <;> simp [halt]

/-- Witness for C1 at a concrete terminal deal. -/
theorem claim_C1_witness :
    ((true : Bool) = true ↔
      ∃ v, (some "Closed Won" : Option String) = some v ∧
        v ∈ TERMINAL_STAGES.map Prod.fst)
    ∧ (some "CLOSED_WON" : Option String) =
        (some "Closed Won" : Option String).bind (alookup TERMINAL_STAGES)
    ∧ ((true : Bool) = true ↔ (some "CLOSED_WON" : Option String) ≠ none) :=
  claim_C1 ⟨true, [⟨some "Closed Won"⟩]⟩
    ⟨some "Closed Won", true, some "CLOSED_WON"⟩ (by decide)

/-! ## C3: rep scope filter (`filter_by_rep`, `_ensure_owner_col`, `safe_column`)

A normalized frame is modelled row-major: a list of column names and one
cell-list per row (cells the filter never reads are irrelevant; `NaN` is
`none`).  `df.empty` is true when either axis has length zero. -/

structure RTable where
  cols : List String
  rows : List (List (Option String))
  deriving Repr, DecidableEq

def df_empty (t : RTable) : Bool := t.rows.isEmpty || t.cols.isEmpty

/-- Position of the first column with the given name. -/
def colIdx (cols : List String) (c : String) : Option Nat :=
  match cols with
  | [] => none
  | c' :: rest => if c = c' then some 0 else (colIdx rest c).map (· + 1)

/-- Cell of a row at an optional column position (`none` when absent). -/
def getCell (row : List (Option String)) (i : Option Nat) : Option String :=
  match i with
  | none => none
  | some j => row.getD j none

theorem colIdx_eq_none_of_not_mem {cols : List String} {c : String}
    (h : c ∉ cols) : colIdx cols c = none := by
  induction cols with
  | nil => rfl
  | cons c' rest ih =>
    simp only [List.mem_cons, not_or] at h
    simp [colIdx, h.1, ih h.2]

/-- `_find_owner_col`: first owner candidate present among the columns. -/
def find_owner_col (t : RTable) : Option String :=
  OWNER_CANDIDATES.find? fun c => decide (c ∈ t.cols)

/-- `_ensure_owner_col`: copy the best candidate into `hubspot_owner_name`. -/
def ensure_owner_col (t : RTable) : RTable :=
  if df_empty t then t
  else if "hubspot_owner_name" ∈ t.cols then t
  else
    match find_owner_col t with
    | some src =>
        { cols := t.cols ++ ["hubspot_owner_name"]
          rows := t.rows.map fun r => r ++ [getCell r (colIdx t.cols src)] }
    | none => t

/-- `filter_by_rep`.  The `reps` argument models the Python parameter after
`reps or REPS_IN_SCOPE` (`[]` stands for `None`/empty, which defaults). -/
def filter_by_rep (t : RTable) (reps : List String) : RTable :=
  if df_empty t then t
  else
    let t' := ensure_owner_col t
    let effReps := if reps = [] then REPS_IN_SCOPE else reps
    let i := colIdx t'.cols "hubspot_owner_name"
    { cols := t'.cols
      rows := t'.rows.filter fun r =>
        match getCell r i with
        | some v => decide (v ∈ effReps)
        | none => false }

/-- **C3 counterexample** A non-empty one-column table with no owner
candidate column: the claim says `filter_by_rep` returns it unchanged, but
the code filters on an all-NaN synthesized owner series and returns the
empty table. -/
theorem claim_C3_counterexample :
    filter_by_rep ⟨["foo"], [[some "bar"]]⟩ [] ≠ ⟨["foo"], [[some "bar"]]⟩ ∧
    filter_by_rep ⟨["foo"], [[some "bar"]]⟩ [] = ⟨["foo"], []⟩ := by
  constructor <;> decide

/-- **C3 (amended)** For every non-empty table in which no owner candidate
column is present, `filter_by_rep` keeps the column set but drops every row
(the synthesized owner series is all-NaN and NaN is never in scope), so the
result is the empty table over the same columns — not the input unchanged. -/
theorem claim_C3 (t : RTable) (reps : List String)
    (hne : df_empty t = false)
    (hcand : ∀ c ∈ OWNER_CANDIDATES, c ∉ t.cols) :
    filter_by_rep t reps = ⟨t.cols, []⟩ := by
  have hown : "hubspot_owner_name" ∉ t.cols :=
    hcand "hubspot_owner_name" (by decide)
  have hfind : find_owner_col t = none := by
    apply List.find?_eq_none.mpr
    intro c hc
    simpa using hcand c hc
  have hens : ensure_owner_col t = t := by
    unfold ensure_owner_col
    rw [hne, hfind]
    simp [hown]
  unfold filter_by_rep
  rw [hne]
  simp only [Bool.false_eq_true, if_false, hens,
    colIdx_eq_none_of_not_mem hown]
  congr 1
  apply List.filter_eq_nil_iff.mpr
  intro r _
  simp [getCell]

/-- Witness for C3 at a concrete table with no owner column. -/
theorem claim_C3_witness :
    filter_by_rep ⟨["foo"], [[some "bar"]]⟩ ["Jake Lynch"] = ⟨["foo"], []⟩ :=
  claim_C3 ⟨["foo"], [[some "bar"]]⟩ ["Jake Lynch"] (by decide) (by decide)

/-! ## C10: task splitting (`_split_tasks`, `_prepare`, `add_period_columns`)

Task frames carry string cells and datetime cells.  `dtCols` lists the names
of the datetime64-dtyped columns (for the `select_dtypes` fallback of
`_resolve_date_col`).  `pd.to_datetime` parsing, period bucketing and the
string rendering of non-string cells are external pandas behaviour, passed in
as a `DateFns` record. -/

/-- Python `str.upper()`. -/
def pupper (s : String) : String := ⟨s.data.map Char.toUpper⟩

inductive TCell
  | str (v : Option String)
  | date (v : Option Int)
  deriving Repr, DecidableEq

structure TaskTable where
  cols : List String
  dtCols : List String
  rows : List (List TCell)
  deriving Repr, DecidableEq

/-- External pandas date behaviour. -/
structure DateFns where
  parse : String → Option Int
  weekStart : Int → Int
  monthStart : Int → Int
  dateStr : Option Int → String

def taskEmpty (t : TaskTable) : Bool := t.rows.isEmpty || t.cols.isEmpty

def getTCell (row : List TCell) (i : Option Nat) : TCell :=
  match i with
  | none => TCell.str none
  | some j => row.getD j (TCell.str none)

/-- `pd.to_datetime(cell, errors="coerce")` on a single cell. -/
def cellDate (f : DateFns) (c : TCell) : Option Int :=
  match c with
  | .str none => none
  | .str (some s) => f.parse s
  | .date v => v

/-- `astype(str)` on a single cell. -/
def cellStr (f : DateFns) (c : TCell) : String :=
  match c with
  | .str none => "nan"
  | .str (some s) => s
  | .date v => f.dateStr v

/-- Column assignment `df[c] = series` where the series is computed row-wise
from the frame before assignment: overwrite in place when the column exists,
append it otherwise.  The assigned series is never datetime64-dtyped at any
use site, so `c` leaves `dtCols`. -/
def setColF (t : TaskTable) (c : String) (f : List TCell → TCell) : TaskTable :=
  match colIdx t.cols c with
  | some j => { t with dtCols := t.dtCols.erase c
                       rows := t.rows.map fun r => r.set j (f r) }
  | none => { cols := t.cols ++ [c]
              dtCols := t.dtCols.erase c
              rows := t.rows.map fun r => r ++ [f r] }

def DATE_CANDIDATES : List String :=
  ["activity_date", "meeting_start_time", "created_date",
   "create_date", "timestamp", "date"]

/-- `_resolve_date_col`: fixed-priority name list, then the first
datetime64-dtyped column. -/
def resolve_date_col (t : TaskTable) : Option String :=
  match DATE_CANDIDATES.find? fun c => decide (c ∈ t.cols) with
  | some c => some c
  | none => t.dtCols.head?

/-- `add_period_columns` from `src/utils/dates.py`. -/
def add_period_columns (f : DateFns) (t : TaskTable) (date_col : String) :
    TaskTable :=
  if taskEmpty t || decide (date_col ∉ t.cols) then t
  else
    let i := colIdx t.cols date_col
    let t1 := setColF t "period_day" fun r => .date (cellDate f (getTCell r i))
    let t2 := setColF t1 "period_week" fun r =>
      .date ((cellDate f (getTCell r i)).map f.weekStart)
    setColF t2 "period_month" fun r =>
      .date ((cellDate f (getTCell r i)).map f.monthStart)

/-- `_prepare`: resolve the date column, add period columns, tag the
activity type. -/
def task_prepare (f : DateFns) (t : TaskTable) (atype : String) : TaskTable :=
  if taskEmpty t then t
  else
    match resolve_date_col t with
    | none => t
    | some dc =>
        let t' := add_period_columns f t dc
        setColF t' "activity_type" fun _ => .str (some atype)

def STATUS_CANDIDATES : List String := ["task_status", "status", "hs_task_status"]

def COMPLETED_SET : List String := ["COMPLETED", "COMPLETE", "DONE"]

def OVERDUE_SET : List String := ["OVERDUE", "PAST_DUE", "DEFERRED"]

def DUE_CANDIDATES : List String := ["due_date", "hs_task_due_date"]

/-- The empty `pd.DataFrame()`. -/
def taskNone : TaskTable := ⟨[], [], []⟩

/-- `_split_tasks` from `src/metrics/activity.py`: returns
(completed tasks, overdue tasks). -/
def _split_tasks (f : DateFns) (now : Int) (t : TaskTable) :
    TaskTable × TaskTable :=
  if taskEmpty t then (taskNone, taskNone)
  else
    let tasks := task_prepare f t "task"
    match STATUS_CANDIDATES.find? fun c => decide (c ∈ tasks.cols) with
    | none => (tasks, taskNone)
    | some sc =>
        let si := colIdx tasks.cols sc
        let upper := fun r => pstrip (pupper (cellStr f (getTCell r si)))
        let completed := fun r => decide (upper r ∈ COMPLETED_SET)
        let overdueExplicit := fun r => decide (upper r ∈ OVERDUE_SET)
        let overdue :=
          match DUE_CANDIDATES.find? fun c => decide (c ∈ tasks.cols) with
          | none => overdueExplicit
          | some dc =>
              let di := colIdx tasks.cols dc
              fun r => overdueExplicit r ||
                ((match cellDate f (getTCell r di) with
                  | some d => decide (d < now)
                  | none => false) && !(completed r))
        ({ tasks with rows := tasks.rows.filter completed },
         { tasks with rows := tasks.rows.filter overdue })

theorem setColF_cols (t : TaskTable) (c : String) (f : List TCell → TCell) :
    (setColF t c f).cols = t.cols ∨ (setColF t c f).cols = t.cols ++ [c] := by
  unfold setColF
  cases colIdx t.cols c <;> simp

theorem setColF_rows_length (t : TaskTable) (c : String) (f : List TCell → TCell) :
    (setColF t c f).rows.length = t.rows.length := by
  unfold setColF
  cases colIdx t.cols c <;> simp

theorem not_mem_setColF_cols {t : TaskTable} {c x : String}
    (hx : x ∉ t.cols) (hne : x ≠ c) (f : List TCell → TCell) :
    x ∉ (setColF t c f).cols := by
  rcases setColF_cols t c f with h | h <;> rw [h]
  · exact hx
  · simp [hx, hne]

theorem task_prepare_rows_length (f : DateFns) (t : TaskTable) (atype : String) :
    (task_prepare f t atype).rows.length = t.rows.length := by
  unfold task_prepare
  split
  · rfl
  · split
    · rfl
    · rw [setColF_rows_length]
      unfold add_period_columns
      split
      · rfl
      · rw [setColF_rows_length, setColF_rows_length, setColF_rows_length]

theorem not_mem_task_prepare_cols {t : TaskTable} {x : String}
    (hx : x ∉ t.cols)
    (h1 : x ≠ "period_day") (h2 : x ≠ "period_week") (h3 : x ≠ "period_month")
    (h4 : x ≠ "activity_type") (f : DateFns) (atype : String) :
    x ∉ (task_prepare f t atype).cols := by
  unfold task_prepare
  split
  · exact hx
  · split
    · exact hx
    · apply not_mem_setColF_cols _ h4
      unfold add_period_columns
      split
      · exact hx
      · exact not_mem_setColF_cols
          (not_mem_setColF_cols (not_mem_setColF_cols hx h1 _) h2 _) h3 _

/-- **C10** For every non-empty task table containing none of the candidate
status columns (`task_status`, `status`, `hs_task_status`), `_split_tasks`
classifies every task as completed (the whole prepared frame, same number of
rows) and no task as overdue — even tasks with a past due date — and the
scoring weights make each such task contribute +2 rather than -2. -/
theorem claim_C10 (f : DateFns) (now : Int) (t : TaskTable)
    (hrows : t.rows ≠ []) (hcols : t.cols ≠ [])
    (hs : ∀ c ∈ STATUS_CANDIDATES, c ∉ t.cols) :
    _split_tasks f now t = (task_prepare f t "task", taskNone)
    ∧ (task_prepare f t "task").rows.length = t.rows.length
    ∧ (task_prepare f t "task").rows.length ≠ 0 := by
  have hne : taskEmpty t = false := by
    unfold taskEmpty
    simp [hrows, hcols]
  have hfind : (STATUS_CANDIDATES.find?
      fun c => decide (c ∈ (task_prepare f t "task").cols)) = none := by
    apply List.find?_eq_none.mpr
    intro c hc
    have : c ∉ (task_prepare f t "task").cols := by
      apply not_mem_task_prepare_cols (hs c hc)
      · rintro rfl; revert hc; decide
      · rintro rfl; revert hc; decide
      · rintro rfl; revert hc; decide
      · rintro rfl; revert hc; decide
    simpa using this
  refine ⟨?_, task_prepare_rows_length f t "task", ?_⟩
  · unfold _split_tasks
    rw [hne]
    simp only [Bool.false_eq_true, if_false]
    rw [hfind]
  · rw [task_prepare_rows_length]
    simpa using hrows

/-- Witness for C10 at a concrete one-row task table with no status column. -/
theorem claim_C10_witness :
    (_split_tasks ⟨fun _ => none, id, id, fun _ => "NaT"⟩ 0
        ⟨["foo"], [], [[TCell.str (some "x")]]⟩ =
      (task_prepare ⟨fun _ => none, id, id, fun _ => "NaT"⟩
        ⟨["foo"], [], [[TCell.str (some "x")]]⟩ "task", taskNone))
    ∧ (task_prepare ⟨fun _ => none, id, id, fun _ => "NaT"⟩
        ⟨["foo"], [], [[TCell.str (some "x")]]⟩ "task").rows.length = 1
    ∧ (task_prepare ⟨fun _ => none, id, id, fun _ => "NaT"⟩
        ⟨["foo"], [], [[TCell.str (some "x")]]⟩ "task").rows.length ≠ 0 := by
  have h := claim_C10 ⟨fun _ => none, id, id, fun _ => "NaT"⟩ 0
    ⟨["foo"], [], [[TCell.str (some "x")]]⟩
    (by simp) (by simp) (by decide)
  exact ⟨h.1, by rw [task_prepare_rows_length]; rfl, h.2.2⟩

/-! ## C6: email owner resolution (`apply_owner_mapping`, `tab_type="emails"`)

An email frame is modelled by the five owner-related columns the branch
reads (presence flags plus per-row cells).  The result pairs each surviving
row with its `hubspot_owner_name` value; `has_owner` records whether the
owner column was added at all. -/

def HUBSPOT_UID_TO_NAME : List (String × String) :=
  [("56564763", "Alex Gonzalez"),
   ("56562506", "Brad Sherman"),
   ("119721604", "Dave Borkowski"),
   ("56564944", "Jake Lynch"),
   ("79617483", "Lance Mitton"),
   ("85412002", "Owen Labombard")]

def REP_LAST_NAMES : List String :=
  ["Sherman", "Labombard", "Lynch", "Borkowski", "Gonzalez", "Mitton"]

/-- `_clean_uid`: empty/NaN to `""`, strip, chop a trailing `".0"`. -/
def clean_uid (v : Option String) : String :=
  match v with
  | none => ""
  | some s =>
      if s = "" then ""
      else
        let t := pstrip s
        if pends t ".0" then t.dropRight 2 else t

structure ERow where
  owner_first : Option String
  first : Option String
  owner_last : Option String
  last : Option String
  uid : Option String
  deriving Repr, DecidableEq

structure ETable where
  has_owner_first : Bool
  has_first : Bool
  has_owner_last : Bool
  has_last : Bool
  has_uid : Bool
  rows : List ERow
  deriving Repr, DecidableEq

structure EOut where
  has_owner : Bool
  rows : List (ERow × String)
  deriving Repr, DecidableEq

/-- The cell of the resolved first-name column
(`owner_first_name` preferred, then `first_name`). -/
def eFirstCell (t : ETable) (r : ERow) : Option String :=
  if t.has_owner_first then r.owner_first
  else if t.has_first then r.first else none

/-- The cell of the resolved last-name column. -/
def eLastCell (t : ETable) (r : ERow) : Option String :=
  if t.has_owner_last then r.owner_last
  else if t.has_last then r.last else none

/-- `(first.fillna("").str.strip() + " " + last.fillna("").str.strip()).str.strip()`. -/
def emailJoinedName (t : ETable) (r : ERow) : String :=
  pstrip (pstrip ((eFirstCell t r).getD "") ++ " " ++ pstrip ((eLastCell t r).getD ""))

/-- `df[last_col].astype(str)` at one row (no `fillna`: NaN renders as "nan"). -/
def eLastStr (t : ETable) (r : ERow) : String :=
  match eLastCell t r with
  | none => "nan"
  | some s => s

/-- The `tab_type == "emails"` branch of `apply_owner_mapping`. -/
def apply_owner_mapping_emails (uid_map : List (String × String)) (t : ETable) :
    EOut :=
  if t.rows.isEmpty then ⟨false, []⟩
  else if (t.has_owner_first || t.has_first) && (t.has_owner_last || t.has_last) then
    ⟨true, (t.rows.filter fun r => decide (pstrip (eLastStr t r) ∈ REP_LAST_NAMES)).map
        fun r => (r, emailJoinedName t r)⟩
  else if t.has_uid then
    ⟨true, (t.rows.filter fun r =>
        decide (alookupD uid_map (clean_uid r.uid) "" ≠ "")).map
        fun r => (r, alookupD uid_map (clean_uid r.uid) "")⟩
  else ⟨false, t.rows.map fun r => (r, "")⟩

/-- **C6 counterexample** An email table carrying `owner_first_name` /
`owner_last_name` columns (cells "Brad" / "Sherman") and an
`activity_assigned_to` UID "999" unknown to the id map.  The claim predicts
owner `id_map.get(clean("999"), "") = ""` and the record dropped; the code
takes the name-column path, keeps the record and assigns "Brad Sherman". -/
theorem claim_C6_counterexample :
    (apply_owner_mapping_emails HUBSPOT_UID_TO_NAME
        ⟨true, false, true, false, true,
         [⟨some "Brad", none, some "Sherman", none, some "999"⟩]⟩).rows =
      [(⟨some "Brad", none, some "Sherman", none, some "999"⟩, "Brad Sherman")]
    ∧ "Brad Sherman" ≠
        alookupD HUBSPOT_UID_TO_NAME (clean_uid (some "999")) "" := by
  constructor <;> decide

/-- **C6 (amended)** Email owner resolution first tries name columns
(`owner_first_name`/`owner_last_name`, falling back to
`first_name`/`last_name`): it assigns the trimmed joined name and keeps
exactly the rows whose rendered last name is in the fixed rep last-name set —
every kept row qualifies and every qualifying input row is kept with that
owner.  Only when no name-column pair resolves does it use the id-map lookup
of the cleaned raw owner ID, defaulting to the empty string and keeping
exactly the rows with a non-empty resulting owner; with neither source
available the table passes through without an owner column. -/
theorem claim_C6 (uid_map : List (String × String)) (t : ETable) :
    (((t.has_owner_first || t.has_first) && (t.has_owner_last || t.has_last)) = false →
      t.has_uid = true →
      (∀ p ∈ (apply_owner_mapping_emails uid_map t).rows,
        p.1 ∈ t.rows ∧ p.2 = alookupD uid_map (clean_uid p.1.uid) "" ∧ p.2 ≠ "")
      ∧ ∀ r ∈ t.rows, alookupD uid_map (clean_uid r.uid) "" ≠ "" →
          (r, alookupD uid_map (clean_uid r.uid) "") ∈
            (apply_owner_mapping_emails uid_map t).rows)
    ∧ (((t.has_owner_first || t.has_first) && (t.has_owner_last || t.has_last)) = true →
      (∀ p ∈ (apply_owner_mapping_emails uid_map t).rows,
        p.1 ∈ t.rows ∧ p.2 = emailJoinedName t p.1 ∧
          pstrip (eLastStr t p.1) ∈ REP_LAST_NAMES)
      ∧ ∀ r ∈ t.rows, pstrip (eLastStr t r) ∈ REP_LAST_NAMES →
          (r, emailJoinedName t r) ∈ (apply_owner_mapping_emails uid_map t).rows)
    ∧ (((t.has_owner_first || t.has_first) && (t.has_owner_last || t.has_last)) = false →
      t.has_uid = false → t.rows ≠ [] →
      apply_owner_mapping_emails uid_map t = ⟨false, t.rows.map fun r => (r, "")⟩) := by
  refine ⟨?_, ?_, ?_⟩
  · intro hname huid
    constructor
    · intro p hp
      unfold apply_owner_mapping_emails at hp
      by_cases he : t.rows.isEmpty
      · simp [he] at hp
      · rw [if_neg (by simpa using he), hname] at hp
        simp only [Bool.false_eq_true, if_false, huid, if_true] at hp
        rcases List.mem_map.mp hp with ⟨r, hr, rfl⟩
        exact ⟨List.mem_of_mem_filter hr, rfl,
          of_decide_eq_true (List.mem_filter.mp hr).2⟩
    · intro r hr hcond
      have he : t.rows.isEmpty = false := by
        cases hrows : t.rows
        · rw [hrows] at hr; simp at hr
        · rfl
      unfold apply_owner_mapping_emails
      rw [if_neg (by simp [he]), hname]
      simp only [Bool.false_eq_true, if_false, huid, if_true]
      exact List.mem_map_of_mem _
        (List.mem_filter.mpr ⟨hr, decide_eq_true hcond⟩)
  · intro hname
    constructor
    · intro p hp
      unfold apply_owner_mapping_emails at hp
      by_cases he : t.rows.isEmpty
      · simp [he] at hp
      · rw [if_neg (by simpa using he), hname] at hp
        rw [if_pos rfl] at hp
        rcases List.mem_map.mp hp with ⟨r, hr, rfl⟩
        exact ⟨List.mem_of_mem_filter hr, rfl,
          of_decide_eq_true (List.mem_filter.mp hr).2⟩
    · intro r hr hcond
      have he : t.rows.isEmpty = false := by
        cases hrows : t.rows
        · rw [hrows] at hr; simp at hr
        · rfl
      unfold apply_owner_mapping_emails
      rw [if_neg (by simp [he]), hname]
      rw [if_pos rfl]
      exact List.mem_map_of_mem _
        (List.mem_filter.mpr ⟨hr, decide_eq_true hcond⟩)
  · intro hname huid hrows
    unfold apply_owner_mapping_emails
    rw [if_neg (by simpa using hrows), hname]
    simp [huid]

/-- Witness for C6: the id-map fallback path at a known UID, with the
qualifying row demonstrably kept. -/
theorem claim_C6_witness :
    (∀ p ∈ (apply_owner_mapping_emails HUBSPOT_UID_TO_NAME
        ⟨false, false, false, false, true,
         [⟨none, none, none, none, some "56564944"⟩]⟩).rows,
      p.1 ∈ [(⟨none, none, none, none, some "56564944"⟩ : ERow)] ∧
        p.2 = alookupD HUBSPOT_UID_TO_NAME (clean_uid p.1.uid) "" ∧ p.2 ≠ "")
    ∧ ((⟨none, none, none, none, some "56564944"⟩ : ERow),
        alookupD HUBSPOT_UID_TO_NAME
          (clean_uid (⟨none, none, none, none,
            some "56564944"⟩ : ERow).uid) "") ∈
      (apply_owner_mapping_emails HUBSPOT_UID_TO_NAME
        ⟨false, false, false, false, true,
         [⟨none, none, none, none, some "56564944"⟩]⟩).rows := by
  have h := (claim_C6 HUBSPOT_UID_TO_NAME
    ⟨false, false, false, false, true,
     [⟨none, none, none, none, some "56564944"⟩]⟩).1 (by decide) rfl
  exact ⟨h.1, h.2 ⟨none, none, none, none, some "56564944"⟩
    (by decide) (by decide)⟩

/-! ## Grouping infrastructure

Python's `defaultdict`/`groupby` grouping: buckets in first-occurrence key
order, rows in encounter order.  `insertGrp` appends one row to its bucket
(creating the bucket at the end); `groupByKey` folds a whole list. -/

def insertGrp {κ α : Type} [DecidableEq κ] (k : κ) (x : α) :
    List (κ × List α) → List (κ × List α)
  | [] => [(k, [x])]
  | (k', xs) :: rest =>
      if k = k' then (k', xs ++ [x]) :: rest else (k', xs) :: insertGrp k x rest

def groupByKey {κ α : Type} [DecidableEq κ] (key : α → κ) (l : List α) :
    List (κ × List α) :=
  l.foldl (fun gs x => insertGrp (key x) x gs) []

theorem foldl_insertGrp {κ α : Type} [DecidableEq κ] (key : α → κ) :
    ∀ (xs : List α) (k : κ) (g : List α) (gs : List (κ × List α)),
      xs.foldl (fun gs x => insertGrp (key x) x gs) ((k, g) :: gs) =
        (k, g ++ xs.filter fun y => decide (key y = k)) ::
          (xs.filter fun y => decide (key y ≠ k)).foldl
            (fun gs x => insertGrp (key x) x gs) gs := by
  intro xs
  induction xs with
  | nil => intro k g gs; simp
  | cons x xs ih =>
    intro k g gs
    simp only [List.foldl_cons, List.filter_cons]
    by_cases hk : key x = k
    · rw [show insertGrp (key x) x ((k, g) :: gs) = (k, g ++ [x]) :: gs from by
        simp [insertGrp, hk], ih]
      simp [hk]
    · rw [show insertGrp (key x) x ((k, g) :: gs) = (k, g) :: insertGrp (key x) x gs
        from by simp [insertGrp, hk], ih]
      simp [hk]

/-- One-step unfolding of `groupByKey`. -/
theorem groupByKey_cons {κ α : Type} [DecidableEq κ] (key : α → κ)
    (x : α) (xs : List α) :
    groupByKey key (x :: xs) =
      (key x, x :: xs.filter fun y => decide (key y = key x)) ::
        groupByKey key (xs.filter fun y => decide (key y ≠ key x)) := by
  unfold groupByKey
  rw [List.foldl_cons]
  have h0 : insertGrp (key x) x ([] : List (κ × List α)) = [(key x, [x])] := rfl
  rw [h0, foldl_insertGrp]
  rfl

theorem groupByKey_mem_aux {κ α : Type} [DecidableEq κ] (key : α → κ) :
    ∀ (n : Nat) (l : List α), l.length ≤ n → ∀ {k : κ} {g : List α},
      (k, g) ∈ groupByKey key l →
      g = l.filter (fun x => decide (key x = k)) ∧ g ≠ [] := by
  intro n
  induction n with
  | zero =>
    intro l hl k g hg
    have : l = [] := List.eq_nil_of_length_eq_zero (Nat.le_zero.mp hl)
    subst this
    simp [groupByKey] at hg
  | succ n ih =>
    intro l hl k g hg
    match l, hl with
    | [], _ => simp [groupByKey] at hg
    | x :: xs, hl =>
      rw [groupByKey_cons] at hg
      rcases List.mem_cons.mp hg with heq | hmem
      · have hk : k = key x := congrArg Prod.fst heq
        have hgv : g = x :: xs.filter fun y => decide (key y = key x) :=
          congrArg Prod.snd heq
        subst hk
        constructor
        · rw [hgv, List.filter_cons]
          simp
        · rw [hgv]; exact List.cons_ne_nil _ _
      · have hxs : xs.length ≤ n := Nat.le_of_succ_le_succ hl
        have hlen : (xs.filter fun y => decide (key y ≠ key x)).length ≤ n :=
          le_trans (List.length_filter_le _ _) hxs
        obtain ⟨hgv, hgne⟩ := ih _ hlen hmem
        have hk : k ≠ key x := by
          rintro rfl
          apply hgne
          rw [hgv]
          apply List.filter_eq_nil_iff.mpr
          intro y hy
          have hne := List.of_mem_filter hy
          simp only [ne_eq, decide_eq_true_eq] at hne
          simpa using hne
        refine ⟨?_, hgne⟩
        rw [hgv, List.filter_cons]
        have hx : decide (key x = k) = false := by
          simpa using fun h => hk h.symm
        rw [hx]
        simp only [Bool.false_eq_true, if_false]
        rw [List.filter_filter]
        apply List.filter_congr
        intro y hy
        by_cases h : key y = k
        · have h2 : key y ≠ key x := by rw [h]; exact hk
          simp [h, h2]
          exact hk
        · simp [h]

/-- The bucket of every emitted group is exactly the rows with that key,
and it is non-empty. -/
theorem groupByKey_mem {κ α : Type} [DecidableEq κ] {key : α → κ}
    {l : List α} {k : κ} {g : List α} (h : (k, g) ∈ groupByKey key l) :
    g = l.filter (fun x => decide (key x = k)) ∧ g ≠ [] :=
  groupByKey_mem_aux key l.length l le_rfl h

theorem groupByKey_keys_aux {κ α : Type} [DecidableEq κ] (key : α → κ) :
    ∀ (n : Nat) (l : List α), l.length ≤ n →
      ((groupByKey key l).map Prod.fst).Nodup ∧
      (∀ k : κ, k ∈ (groupByKey key l).map Prod.fst ↔ ∃ x ∈ l, key x = k) := by
  intro n
  induction n with
  | zero =>
    intro l hl
    have : l = [] := List.eq_nil_of_length_eq_zero (Nat.le_zero.mp hl)
    subst this
    simp [groupByKey]
  | succ n ih =>
    intro l hl
    match l, hl with
    | [], _ => simp [groupByKey]
    | x :: xs, hl =>
      have hxs : xs.length ≤ n := Nat.le_of_succ_le_succ hl
      have hlen : (xs.filter fun y => decide (key y ≠ key x)).length ≤ n :=
        le_trans (List.length_filter_le _ _) hxs
      obtain ⟨ihnd, ihmem⟩ := ih _ hlen
      rw [groupByKey_cons]
      constructor
      · rw [List.map_cons]
        apply List.Nodup.cons _ ihnd
        intro hmem
        rcases (ihmem (key x)).mp hmem with ⟨y, hy, hky⟩
        have := List.of_mem_filter hy
        simp only [ne_eq, decide_eq_true_eq] at this
        exact this hky
      · intro k
        rw [List.map_cons, List.mem_cons]
        constructor
        · rintro (rfl | hmem)
          · exact ⟨x, List.mem_cons_self x xs, rfl⟩
          · rcases (ihmem k).mp hmem with ⟨y, hy, hky⟩
            exact ⟨y, List.mem_cons_of_mem x (List.mem_of_mem_filter hy), hky⟩
        · rintro ⟨y, hy, rfl⟩
          rcases List.mem_cons.mp hy with rfl | hy'
          · exact Or.inl rfl
          · by_cases hkk : key y = key x
            · exact Or.inl hkk
            · exact Or.inr ((ihmem (key y)).mpr
                ⟨y, List.mem_filter.mpr ⟨hy', by simpa using hkk⟩, rfl⟩)

/-- Group keys are distinct. -/
theorem groupByKey_keys_nodup {κ α : Type} [DecidableEq κ] (key : α → κ)
    (l : List α) : ((groupByKey key l).map Prod.fst).Nodup :=
  (groupByKey_keys_aux key l.length l le_rfl).1

/-- A key appears among the groups iff some row carries it. -/
theorem groupByKey_keys_mem {κ α : Type} [DecidableEq κ] (key : α → κ)
    (l : List α) (k : κ) :
    k ∈ (groupByKey key l).map Prod.fst ↔ ∃ x ∈ l, key x = k :=
  (groupByKey_keys_aux key l.length l le_rfl).2 k

theorem sum_filter_split {α β : Type} [AddCommMonoid β] (f : α → β)
    (p q : α → Bool) (l : List α) :
    ((l.filter p).map f).sum =
      ((l.filter fun y => p y && q y).map f).sum +
      ((l.filter fun y => p y && !q y).map f).sum := by
  induction l with
  | nil => simp
  | cons x xs ih =>
    by_cases hp : p x
    · by_cases hq : q x
      · simp only [List.filter_cons, hp, hq, Bool.and_self, Bool.not_true,
          Bool.and_false, if_true, Bool.and_true]
        simp only [Bool.false_eq_true, if_false, List.map_cons, List.sum_cons, ih]
        abel
      · have hq' : q x = false := by simpa using hq
        simp only [List.filter_cons, hp, hq', Bool.and_false, Bool.not_false,
          Bool.and_true, if_true]
        simp only [Bool.false_eq_true, if_false, List.map_cons, List.sum_cons, ih]
        abel
    · have hp' : p x = false := by simpa using hp
      simp only [List.filter_cons, hp', Bool.false_and]
      simp only [Bool.false_eq_true, if_false, ih]

/-- Summing a row function over the (filtered) groups equals summing it over
the (filtered) rows: grouping partitions the rows. -/
theorem groupByKey_sum_aux {κ α β : Type} [DecidableEq κ] [AddCommMonoid β]
    (key : α → κ) (f : α → β) (P : κ → Bool) :
    ∀ (n : Nat) (l : List α), l.length ≤ n →
      (((groupByKey key l).filter fun g => P g.1).map
          fun g => (g.2.map f).sum).sum =
        ((l.filter fun x => P (key x)).map f).sum := by
  intro n
  induction n with
  | zero =>
    intro l hl
    have : l = [] := List.eq_nil_of_length_eq_zero (Nat.le_zero.mp hl)
    subst this
    simp [groupByKey]
  | succ n ih =>
    intro l hl
    match l, hl with
    | [], _ => simp [groupByKey]
    | x :: xs, hl =>
      have hxs : xs.length ≤ n := Nat.le_of_succ_le_succ hl
      have hlen : (xs.filter fun y => decide (key y ≠ key x)).length ≤ n :=
        le_trans (List.length_filter_le _ _) hxs
      rw [groupByKey_cons]
      have hsplit := sum_filter_split f (fun y => P (key y))
        (fun y => decide (key y = key x)) xs
      by_cases hP : P (key x)
      · simp only [List.filter_cons, hP, if_true, List.map_cons, List.sum_cons,
          ih _ hlen]
        rw [hsplit]
        have e1 : (xs.filter fun y => P (key y) && decide (key y = key x)) =
            xs.filter fun y => decide (key y = key x) := by
          apply List.filter_congr
          intro y _
          by_cases h : key y = key x
          · simp [h, hP]
          · simp [h]
        have e2 : ((xs.filter fun y => decide (key y ≠ key x)).filter
              fun y => P (key y)) =
            xs.filter fun y => P (key y) && !decide (key y = key x) := by
          rw [List.filter_filter]
          apply List.filter_congr
          intro y _
          by_cases h : key y = key x <;> simp [h]
        rw [e1] at hsplit ⊢
        rw [e2]
        rw [add_assoc]
      · have hPx : P (key x) = false := by simpa using hP
        simp only [List.filter_cons, hPx]
        simp only [Bool.false_eq_true, if_false, ih _ hlen]
        rw [hsplit]
        have e1 : (xs.filter fun y => P (key y) && decide (key y = key x)) = [] := by
          apply List.filter_eq_nil_iff.mpr
          intro y _
          by_cases h : key y = key x
          · simp [h, hPx]
          · simp [h]
        have e2 : ((xs.filter fun y => decide (key y ≠ key x)).filter
              fun y => P (key y)) =
            xs.filter fun y => P (key y) && !decide (key y = key x) := by
          rw [List.filter_filter]
          apply List.filter_congr
          intro y _
          by_cases h : key y = key x <;> simp [h]
        rw [e2, e1]
        simp

theorem groupByKey_sum_filter {κ α β : Type} [DecidableEq κ] [AddCommMonoid β]
    (key : α → κ) (f : α → β) (P : κ → Bool) (l : List α) :
    (((groupByKey key l).filter fun g => P g.1).map
        fun g => (g.2.map f).sum).sum =
      ((l.filter fun x => P (key x)).map f).sum :=
  groupByKey_sum_aux key f P l.length l le_rfl

/-! ## C2: win rate (`win_rate` from `src/metrics/pipeline.py`)

A terminal-tagged deal table carries `is_terminal`, `deal_stage`, `pipeline`
and `hubspot_owner_name` cells plus presence flags for the optional group
columns.  `groupby(group, dropna=False)` keys are pairs whose components are
`none` when the corresponding column is absent (and then take no part in the
key).  `.round(4)` is modelled by integer rounding of `10^4 * q`. -/

structure WrDeal where
  is_terminal : Bool
  deal_stage : Option String
  pipeline : Option String
  owner : Option String
  deriving Repr, DecidableEq

structure WrTable where
  has_is_terminal : Bool
  has_pipeline : Bool
  has_owner : Bool
  rows : List WrDeal
  deriving Repr, DecidableEq

structure WrGroup where
  pipeline : Option (Option String)
  owner : Option (Option String)
  wins : Int
  terminal_count : Int
  win_rate : ℚ
  deriving Repr, DecidableEq

/-- `series.round(4)`. -/
def round4 (q : ℚ) : ℚ := (round (q * 10000) : ℤ) / 10000

/-- `terminal["deal_stage"].isin(WIN_STAGES)` at one row. -/
def is_won (d : WrDeal) : Bool :=
  match d.deal_stage with
  | some s => decide (s ∈ WIN_STAGES)
  | none => false

/-- The `groupby` key over the present group columns. -/
def wrKey (t : WrTable) (d : WrDeal) : Option (Option String) × Option (Option String) :=
  (if t.has_pipeline then some d.pipeline else none,
   if t.has_owner then some d.owner else none)

def win_rate (t : WrTable) : List WrGroup :=
  if t.rows.isEmpty || !t.has_is_terminal then []
  else
    let terminal := t.rows.filter (·.is_terminal)
    if terminal.isEmpty then []
    else if !t.has_pipeline && !t.has_owner then []
    else
      (groupByKey (wrKey t) terminal).map fun g =>
        let wins : Int := (g.2.filter is_won).length
        let cnt : Int := g.2.length
        { pipeline := g.1.1
          owner := g.1.2
          wins := wins
          terminal_count := cnt
          win_rate := round4 ((wins : ℚ) / (cnt : ℚ)) }

theorem round_monotone {a b : ℚ} (h : a ≤ b) : round a ≤ round b := by
  rw [round_eq, round_eq]
  exact Int.floor_le_floor (by linarith)

theorem round4_nonneg {q : ℚ} (h : 0 ≤ q) : 0 ≤ round4 q := by
  unfold round4
  apply div_nonneg _ (by norm_num)
  have : (0 : ℚ) ≤ q * 10000 := by positivity
  have h0 := round_monotone this
  rw [round_zero] at h0
  exact_mod_cast h0

theorem round4_le_one {q : ℚ} (h : q ≤ 1) : round4 q ≤ 1 := by
  unfold round4
  rw [div_le_one (by norm_num)]
  have h1 : q * 10000 ≤ (10000 : ℚ) := by linarith
  have h2 := round_monotone h1
  have h3 : round ((10000 : ℤ) : ℚ) = 10000 := round_intCast 10000
  rw [show ((10000 : ℤ) : ℚ) = (10000 : ℚ) by norm_num] at h3
  rw [h3] at h2
  exact_mod_cast h2

/-- **C2** Every `(pipeline, rep)` group emitted by `win_rate` has a strictly
positive `terminal_count` (so no division by zero can occur and no empty
group appears), its `win_rate` is `wins / terminal_count` rounded to 4
decimals, and `0 ≤ win_rate ≤ 1`. -/
theorem claim_C2 (t : WrTable) (g : WrGroup) (hg : g ∈ win_rate t) :
    0 < g.terminal_count
    ∧ g.win_rate = round4 ((g.wins : ℚ) / (g.terminal_count : ℚ))
    ∧ g.wins ≤ g.terminal_count ∧ 0 ≤ g.wins
    ∧ 0 ≤ g.win_rate ∧ g.win_rate ≤ 1 := by
  unfold win_rate at hg
  by_cases h1 : t.rows.isEmpty || !t.has_is_terminal
  · simp [h1] at hg
  · rw [if_neg (by simpa using h1)] at hg
    by_cases h2 : (t.rows.filter (·.is_terminal)).isEmpty
    · simp [h2] at hg
    · rw [if_neg (by simpa using h2)] at hg
      by_cases h3 : !t.has_pipeline && !t.has_owner
      · simp [h3] at hg
      · rw [if_neg (by simpa using h3)] at hg
        rcases List.mem_map.mp hg with ⟨gr, hgr, rfl⟩
        obtain ⟨-, hne⟩ := groupByKey_mem (by
          show (gr.1, gr.2) ∈ _
          simpa using hgr)
        have hlen : 0 < gr.2.length := List.length_pos.mpr hne
        have hwins_le : (gr.2.filter is_won).length ≤ gr.2.length :=
          List.length_filter_le _ _
        dsimp only
        refine ⟨by exact_mod_cast hlen, rfl, by exact_mod_cast hwins_le,
          by positivity, ?_, ?_⟩
        · apply round4_nonneg
          positivity
        · apply round4_le_one
          rw [div_le_one (by exact_mod_cast hlen)]
          exact_mod_cast hwins_le

/-- Witness for C2 at a one-deal table (a closed-won deal). -/
theorem claim_C2_witness :
    0 < (1 : Int)
    ∧ (1 : ℚ) = round4 (((1 : Int) : ℚ) / ((1 : Int) : ℚ))
    ∧ (1 : Int) ≤ 1 ∧ (0 : Int) ≤ 1
    ∧ (0 : ℚ) ≤ 1 ∧ (1 : ℚ) ≤ 1 := by
  have hwr : win_rate
      ⟨true, true, true,
        [⟨true, some "Closed Won", some "Acquisition (New Customer)",
          some "Jake Lynch"⟩]⟩ =
      [⟨some (some "Acquisition (New Customer)"), some (some "Jake Lynch"),
        1, 1, 1⟩] := by
    simp only [win_rate, groupByKey, wrKey, is_won, WIN_STAGES]
    norm_num
    rw [show insertGrp
        (some (some "Acquisition (New Customer)"), some (some "Jake Lynch"))
        (⟨true, some "Closed Won", some "Acquisition (New Customer)",
          some "Jake Lynch"⟩ : WrDeal) [] =
      [((some (some "Acquisition (New Customer)"), some (some "Jake Lynch")),
        [⟨true, some "Closed Won", some "Acquisition (New Customer)",
          some "Jake Lynch"⟩])] from rfl]
    simp only [List.map_cons, List.map_nil, List.cons.injEq, and_true]
    norm_num [is_won, WIN_STAGES, round4, round_eq]
  have h := claim_C2
    ⟨true, true, true,
      [⟨true, some "Closed Won", some "Acquisition (New Customer)",
        some "Jake Lynch"⟩]⟩
    ⟨some (some "Acquisition (New Customer)"), some (some "Jake Lynch"),
      1, 1, 1⟩
    (by rw [hwr]; exact List.mem_singleton_self _)
  simpa using h

/-! ## C9: activity score additivity
(`compute_activity_score`, `compute_activity_score_by_period`)

A weekly activity-count table: owner, period cells (`dropna=False` keeps NaN
keys as groups) and the five count columns, with presence flags —
`_ensure_metric_cols` treats an absent count column as zero.  `sort_values`
descending by score is a stable insertion sort. -/

def WEIGHTS : List (String × Int) :=
  [("meetings", 5), ("calls", 3), ("emails", 1),
   ("completed_tasks", 2), ("overdue_tasks", -2)]

structure ARow where
  owner : Option String
  period : Option String
  meetings : Int
  calls : Int
  emails : Int
  completed_tasks : Int
  overdue_tasks : Int
  deriving Repr, DecidableEq

structure ATable where
  has_meetings : Bool
  has_calls : Bool
  has_emails : Bool
  has_completed : Bool
  has_overdue : Bool
  has_period : Bool
  rows : List ARow
  deriving Repr, DecidableEq

/-- The count cell of metric column `m` after `_ensure_metric_cols`
(an absent column reads as 0). -/
def effCount (t : ATable) (r : ARow) (m : String) : Int :=
  if m = "meetings" then (if t.has_meetings then r.meetings else 0)
  else if m = "calls" then (if t.has_calls then r.calls else 0)
  else if m = "emails" then (if t.has_emails then r.emails else 0)
  else if m = "completed_tasks" then (if t.has_completed then r.completed_tasks else 0)
  else if m = "overdue_tasks" then (if t.has_overdue then r.overdue_tasks else 0)
  else 0

/-- Per-row weighted score `sum(df[c] * w for c, w in WEIGHTS.items())`. -/
def rowScore (t : ATable) (r : ARow) : Int :=
  (WEIGHTS.map fun p => effCount t r p.1 * p.2).sum

structure ScoreRow where
  owner : Option String
  meetings : Int
  calls : Int
  emails : Int
  completed_tasks : Int
  overdue_tasks : Int
  activity_score : Int
  deriving Repr, DecidableEq

structure PScoreRow where
  owner : Option String
  period : Option String
  activity_score : Int
  deriving Repr, DecidableEq

/-- Stable descending insertion by `activity_score`
(model of `sort_values(ascending=False)`). -/
def insertDesc (x : ScoreRow) : List ScoreRow → List ScoreRow
  | [] => [x]
  | y :: ys =>
      if y.activity_score < x.activity_score then x :: y :: ys
      else y :: insertDesc x ys

def sortScoreDesc : List ScoreRow → List ScoreRow
  | [] => []
  | x :: xs => insertDesc x (sortScoreDesc xs)

/-- `compute_activity_score`: group by owner, sum each metric, weight. -/
def compute_activity_score (t : ATable) : List ScoreRow :=
  if t.rows.isEmpty then []
  else
    sortScoreDesc ((groupByKey (fun r : ARow => r.owner) t.rows).map fun g =>
      let sums : String → Int := fun m => (g.2.map fun r => effCount t r m).sum
      { owner := g.1
        meetings := sums "meetings"
        calls := sums "calls"
        emails := sums "emails"
        completed_tasks := sums "completed_tasks"
        overdue_tasks := sums "overdue_tasks"
        activity_score := (WEIGHTS.map fun p => sums p.1 * p.2).sum })

/-- `compute_activity_score_by_period`: per-row score, then group by
(owner, period) and sum. -/
def compute_activity_score_by_period (t : ATable) : List PScoreRow :=
  if t.rows.isEmpty || !t.has_period then []
  else
    (groupByKey (fun r : ARow => (r.owner, r.period)) t.rows).map fun g =>
      { owner := g.1.1
        period := g.1.2
        activity_score := (g.2.map (rowScore t)).sum }

theorem mem_insertDesc {x a : ScoreRow} {l : List ScoreRow} :
    a ∈ insertDesc x l ↔ a = x ∨ a ∈ l := by
  induction l with
  | nil => simp [insertDesc]
  | cons y ys ih =>
    unfold insertDesc
    by_cases h : y.activity_score < x.activity_score
    · simp [h]
    · simp [h, ih]
      tauto

theorem mem_sortScoreDesc {a : ScoreRow} {l : List ScoreRow} :
    a ∈ sortScoreDesc l ↔ a ∈ l := by
  induction l with
  | nil => simp [sortScoreDesc]
  | cons x xs ih =>
    unfold sortScoreDesc
    rw [mem_insertDesc, List.mem_cons, ih]

theorem sum_map_add_int {α : Type} (f g : α → Int) (l : List α) :
    (l.map fun x => f x + g x).sum = (l.map f).sum + (l.map g).sum := by
  induction l with
  | nil => simp
  | cons x xs ih =>
    simp only [List.map_cons, List.sum_cons, ih]
    ring

/-- Exchanging the order of the weight sum and the row sum. -/
theorem weights_sum_swap (t : ATable) (P : List (String × Int)) (X : List ARow) :
    (P.map fun p => (X.map fun r => effCount t r p.1).sum * p.2).sum =
      (X.map fun r => (P.map fun p => effCount t r p.1 * p.2).sum).sum := by
  induction P with
  | nil => simp
  | cons p P ih =>
    simp only [List.map_cons, List.sum_cons, ih]
    rw [← List.sum_map_mul_right]
    rw [← sum_map_add_int]

/-- **C9** For every weekly activity-count table (period column present) and
every rep row emitted by `compute_activity_score`, the rep's total
`activity_score` equals the sum of that rep's per-period scores from
`compute_activity_score_by_period`, with absent count columns read as zero. -/
theorem claim_C9 (t : ATable) (o : Option String) (s : ScoreRow)
    (hp : t.has_period = true)
    (hs : s ∈ compute_activity_score t) (ho : s.owner = o) :
    s.activity_score =
      (((compute_activity_score_by_period t).filter fun p =>
          decide (p.owner = o)).map (fun p => p.activity_score)).sum := by
  by_cases hne : t.rows.isEmpty
  · rw [compute_activity_score, if_pos hne] at hs
    simp at hs
  · rw [compute_activity_score, if_neg hne] at hs
    rw [mem_sortScoreDesc] at hs
    rcases List.mem_map.mp hs with ⟨g, hg, rfl⟩
    obtain ⟨hgv, -⟩ := groupByKey_mem (by
      show (g.1, g.2) ∈ _
      simpa using hg)
    dsimp only at ho ⊢
    subst ho
    rw [compute_activity_score_by_period, if_neg (by simp [hne, hp])]
    rw [List.filter_map, List.map_map]
    have hPmap :
        ((groupByKey (fun r : ARow => (r.owner, r.period)) t.rows).filter
            ((fun p : PScoreRow => decide (p.owner = g.1)) ∘
              (fun g2 : (Option String × Option String) × List ARow =>
                ({ owner := g2.1.1, period := g2.1.2,
                   activity_score := (g2.2.map (rowScore t)).sum } : PScoreRow)))) =
        ((groupByKey (fun r : ARow => (r.owner, r.period)) t.rows).filter
          fun g2 => decide (g2.1.1 = g.1)) := by
      apply List.filter_congr
      intro x _
      rfl
    rw [hPmap]
    have hsum := groupByKey_sum_filter (fun r : ARow => (r.owner, r.period))
      (rowScore t) (fun k => decide (k.1 = g.1)) t.rows
    have hmapeq :
        (((groupByKey (fun r : ARow => (r.owner, r.period)) t.rows).filter
            fun g2 => decide (g2.1.1 = g.1)).map
          ((fun p : PScoreRow => p.activity_score) ∘
            (fun g2 : (Option String × Option String) × List ARow =>
              ({ owner := g2.1.1, period := g2.1.2,
                 activity_score := (g2.2.map (rowScore t)).sum } : PScoreRow)))) =
        (((groupByKey (fun r : ARow => (r.owner, r.period)) t.rows).filter
            fun g2 => decide (g2.1.1 = g.1)).map
          fun g2 => (g2.2.map (rowScore t)).sum) := by
      apply List.map_congr_left
      intro x _
      rfl
    rw [hmapeq, hsum]
    rw [weights_sum_swap]
    rw [hgv]
    apply congrArg
    apply congrArg
    apply List.filter_congr
    intro x _
    rfl

/-- Witness for C9 at a two-period, one-rep table. -/
theorem claim_C9_witness :
    (12 : Int) =
      (((compute_activity_score_by_period
          ⟨true, true, true, true, true, true,
            [⟨some "Jake Lynch", some "2025-01-06", 1, 1, 0, 0, 1⟩,
             ⟨some "Jake Lynch", some "2025-01-13", 1, 0, 1, 0, 0⟩]⟩).filter
          fun p => decide (p.owner = some "Jake Lynch")).map
        (fun p => p.activity_score)).sum := by
  have h := claim_C9
    ⟨true, true, true, true, true, true,
      [⟨some "Jake Lynch", some "2025-01-06", 1, 1, 0, 0, 1⟩,
       ⟨some "Jake Lynch", some "2025-01-13", 1, 0, 1, 0, 0⟩]⟩
    (some "Jake Lynch")
    ⟨some "Jake Lynch", 2, 1, 1, 0, 1, 12⟩
    rfl (by decide) rfl
  simpa using h

/-! ## C4 and C5: meeting deduplication (`deduplicate_meetings`)

A meeting frame carries the five columns the algorithm reads by name plus a
list of opaque `extra` cells per row (the remaining, non-date-named columns,
merged by the longest-non-empty rule).  The date-column parser
(`pd.to_datetime(...).dt.date`) is the external parameter `dparse`; parsed
calendar dates are `Int`.  `deduplicate_meetings` returns `none` exactly when
the source returns its input unchanged (empty frame or missing name/date
column). -/

def upsert {κ ν : Type} [DecidableEq κ] (k : κ) (v : ν) :
    List (κ × ν) → List (κ × ν)
  | [] => [(k, v)]
  | (k', v') :: rest =>
      if k = k' then (k, v) :: rest else (k', v') :: upsert k v rest

def klookup {κ ν : Type} [DecidableEq κ] (l : List (κ × ν)) (k : κ) : Option ν :=
  match l with
  | [] => none
  | (k', v) :: rest => if k = k' then some v else klookup rest k

def GONG_PFXS : List String :=
  ["[Gong] ", "[Gong]", "Google Meet: ", "Google Meet:"]

/-- `_norm_meeting_name`: strip the platform name markers in sequence. -/
def norm_meeting_name (v : Option String) : String :=
  let n := match v with
    | none => ""
    | some s => pstrip s
  pstrip (GONG_PFXS.foldl (fun n p => if pstarts n p then n.drop p.length else n) n)

/-- `_safe_str`. -/
def safe_str (v : Option String) : String :=
  match v with
  | none => ""
  | some s => pstrip s

/-- `_best_value`: longest non-empty string, first maximum kept
(Python `max(key=len)`). -/
def best_value (vals : List String) : String :=
  match vals.filter (fun v => decide (v ≠ "")) with
  | [] => ""
  | v :: vs => vs.foldl (fun best x => if best.length < x.length then x else best) v

def OUTCOME_PRIORITY : List (String × Int) :=
  [("Completed", 5), ("No Show", 4), ("Canceled", 3),
   ("Rescheduled", 2), ("Scheduled", 1), ("", 0)]

/-- The sort key `OUTCOME_PRIORITY.get(o.strip(), 0)`. -/
def outcomePrio (s : String) : Int := alookupD OUTCOME_PRIORITY (pstrip s) 0

/-- `max(outcomes, key=...)`: first value of highest outcome priority. -/
def bestOutcome (vals : List String) : String :=
  match vals with
  | [] => ""
  | v :: vs => vs.foldl (fun best x =>
      if outcomePrio best < outcomePrio x then x else best) v

structure Meeting where
  meeting_name : Option String
  start : Option String
  owner : Option String
  company : Option String
  outcome : Option String
  extra : List (Option String)
  deriving Repr, DecidableEq

structure MTable where
  has_name : Bool
  has_date : Bool
  has_owner : Bool
  has_company : Bool
  has_outcome : Bool
  rows : List Meeting
  deriving Repr, DecidableEq

structure MMeeting where
  meeting_name : Option String
  start : Option Int
  owner : Option String
  company : Option String
  outcome : Option String
  has_gong : Bool
  extra : List (Option String)
  deriving Repr, DecidableEq

/-- `fillna("").astype(str)` on one cell. -/
def fillStr (v : Option String) : String := v.getD ""

def hasGong (r : Meeting) : Bool := pstarts (fillStr r.meeting_name) "[Gong]"

def startDate (dparse : String → Option Int) (r : Meeting) : Option Int :=
  r.start.bind dparse

def safeOwner (t : MTable) (r : Meeting) : String :=
  if t.has_owner then safe_str r.owner else ""

def safeCompany (t : MTable) (r : Meeting) : String :=
  if t.has_company then safe_str r.company else ""

/-- Grouping key of a named row: (normalized name, start date, owner);
blank groups use the `"_blank"` marker in the name slot, as in the source. -/
def nkey (dparse : String → Option Int) (t : MTable) (r : Meeting) :
    String × Option Int × String :=
  (norm_meeting_name r.meeting_name, startDate dparse r, safeOwner t r)

/-- The `named_lookup` dict: (date, rep, company) of every named-group row
with a non-blank company, mapped to that group's key; later writes win. -/
def namedLookup (t : MTable)
    (groups : List ((String × Option Int × String) × List Meeting)) :
    List ((Option Int × String × String) × (String × Option Int × String)) :=
  groups.foldl (fun acc g =>
    g.2.foldl (fun acc2 r =>
      let comp := safeCompany t r
      if comp ≠ "" then upsert (g.1.2.1, g.1.2.2, comp) g.1 acc2 else acc2) acc) []

/-- Merge the extra cells of a group column-wise by `_best_value`. -/
def mergeExtra (g : List Meeting) : List (Option String) :=
  match g with
  | [] => []
  | r :: _ =>
      (List.range r.extra.length).map fun i =>
        some (best_value (g.map fun r2 => fillStr (r2.extra.getD i none)))

/-- Merge one group: singletons pass through (with the final date re-parse),
larger groups take the best outcome, ORed `has_gong`, the normalized name and
longest-non-empty everything else. -/
def mergeGroup (dparse : String → Option Int) (t : MTable)
    (k : String × Option Int × String) (g : List Meeting) : MMeeting :=
  match g with
  | [r] =>
      { meeting_name := r.meeting_name
        start := r.start.bind dparse
        owner := if t.has_owner then r.owner else none
        company := if t.has_company then r.company else none
        outcome := if t.has_outcome then r.outcome else none
        has_gong := hasGong r
        extra := r.extra }
  | _ =>
      { meeting_name := some (if k.1 = "_blank" then "" else k.1)
        start := dparse (best_value (g.map fun r => fillStr r.start))
        owner := if t.has_owner then
            some (best_value (g.map fun r => fillStr r.owner)) else none
        company := if t.has_company then
            some (best_value (g.map fun r => fillStr r.company)) else none
        outcome := if t.has_outcome then
            some (bestOutcome (g.map fun r => fillStr r.outcome)) else none
        has_gong := g.any hasGong
        extra := mergeExtra g }

/-- The grouping phase: named rows by (name, date, rep); blank rows matched
into a named group via `named_lookup` or collected under a
`("_blank", date, rep)` key. -/
def meetingGroups (dparse : String → Option Int) (t : MTable) :
    List ((String × Option Int × String) × List Meeting) :=
  let named := t.rows.filter fun r => decide (norm_meeting_name r.meeting_name ≠ "")
  let blanks := t.rows.filter fun r => decide (norm_meeting_name r.meeting_name = "")
  let namedGroups := groupByKey (nkey dparse t) named
  let lut := namedLookup t namedGroups
  blanks.foldl (fun gs b =>
    let lk := (startDate dparse b, safeOwner t b, safeCompany t b)
    match klookup lut lk with
    | some k => insertGrp k b gs
    | none => insertGrp ("_blank", startDate dparse b, safeOwner t b) b gs)
    namedGroups

/-- `deduplicate_meetings`; `none` models "input returned unchanged"
(empty frame, or name/date column missing). -/
def deduplicate_meetings (dparse : String → Option Int) (t : MTable) :
    Option (List MMeeting) :=
  if t.rows.isEmpty then none
  else if !t.has_name || !t.has_date then none
  else some ((meetingGroups dparse t).map fun g => mergeGroup dparse t g.1 g.2)

theorem dedup_map_injective {α β : Type} [DecidableEq α] [DecidableEq β]
    {f : α → β} (hf : Function.Injective f) (l : List α) :
    (l.map f).dedup = l.dedup.map f := by
  induction l with
  | nil => simp
  | cons x xs ih =>
    by_cases h : x ∈ xs
    · rw [List.map_cons, List.dedup_cons_of_mem (List.mem_map_of_mem f h), ih,
        List.dedup_cons_of_mem h]
    · have hf' : f x ∉ xs.map f := by
        intro hc
        rcases List.mem_map.mp hc with ⟨y, hy, he⟩
        exact h (hf he ▸ hy)
      rw [List.map_cons, List.dedup_cons_of_not_mem hf', ih,
        List.dedup_cons_of_not_mem h, List.map_cons]

/-- The number of groups is the number of distinct keys. -/
theorem groupByKey_length {κ α : Type} [DecidableEq κ] (key : α → κ)
    (l : List α) :
    (groupByKey key l).length = (l.map key).dedup.length := by
  have h1 := groupByKey_keys_nodup key l
  have h2 := groupByKey_keys_mem key l
  have h3 : ∀ k, k ∈ (l.map key).dedup ↔ ∃ x ∈ l, key x = k := by
    intro k
    rw [List.mem_dedup, List.mem_map]
  have hperm : ((groupByKey key l).map Prod.fst).Perm ((l.map key).dedup) := by
    apply (List.perm_ext_iff_of_nodup h1 (List.nodup_dedup _)).mpr
    intro k
    rw [h2 k, h3 k]
  have hlen := hperm.length_eq
  simpa using hlen

/-- **C4 counterexample** Two distinct blank-name meeting rows with equal
(absent) date and equal owner, matching no named group: the claim says the
output has one row per input blank, but the code merges them into a single
`("_blank", date, owner)` group — one output row from two inputs. -/
theorem claim_C4_counterexample :
    (deduplicate_meetings (fun _ => none)
        ⟨true, true, true, true, true,
          [⟨none, none, some "Jake Lynch", none, some "Completed", []⟩,
           ⟨none, none, some "Jake Lynch", none, some "Scheduled", []⟩]⟩).map
      List.length = some 1
    ∧ (⟨none, none, some "Jake Lynch", none, some "Completed", []⟩ : Meeting) ≠
      ⟨none, none, some "Jake Lynch", none, some "Scheduled", []⟩ := by
  constructor <;> decide

/-- **C4 (amended)** Unmatched blank-name meeting rows do not each form their
own singleton group: they are grouped by (calendar date, owner name).  For a
table whose rows are all blank-named with blank companies (hence all
unmatched), deduplication succeeds and emits exactly one row per distinct
(date, owner) pair among the inputs. -/
theorem claim_C4 (dparse : String → Option Int) (t : MTable)
    (hname : t.has_name = true) (hdate : t.has_date = true)
    (hrows : t.rows ≠ [])
    (hblank : ∀ r ∈ t.rows, norm_meeting_name r.meeting_name = "") :
    ∃ out, deduplicate_meetings dparse t = some out ∧
      out.length =
        ((t.rows.map fun r => (startDate dparse r, safeOwner t r)).dedup).length := by
  have e1 : (t.rows.filter fun r =>
      decide (norm_meeting_name r.meeting_name ≠ "")) = [] := by
    apply List.filter_eq_nil_iff.mpr
    intro r hr
    simp [hblank r hr]
  have e2 : (t.rows.filter fun r =>
      decide (norm_meeting_name r.meeting_name = "")) = t.rows := by
    apply List.filter_eq_self.mpr
    intro r hr
    simp [hblank r hr]
  have hgrp : meetingGroups dparse t =
      groupByKey (fun r => (("_blank" : String), startDate dparse r, safeOwner t r))
        t.rows := by
    unfold meetingGroups
    rw [e1, e2]
    rfl
  refine ⟨(meetingGroups dparse t).map fun g => mergeGroup dparse t g.1 g.2, ?_, ?_⟩
  · unfold deduplicate_meetings
    rw [if_neg (by simpa using hrows), if_neg (by simp [hname, hdate])]
  · rw [List.length_map, hgrp, groupByKey_length]
    have hinj : Function.Injective
        (fun p : Option Int × String => (("_blank" : String), p.1, p.2)) := by
      intro a b h
      simpa using congrArg Prod.snd h
    have hcomp2 : (t.rows.map fun r =>
        (("_blank" : String), startDate dparse r, safeOwner t r)) =
        (t.rows.map fun r => (startDate dparse r, safeOwner t r)).map
          (fun p : Option Int × String => (("_blank" : String), p.1, p.2)) := by
      rw [List.map_map]
      rfl
    rw [hcomp2, dedup_map_injective hinj, List.length_map]

/-- Witness for C4 at two blank rows with distinct owners. -/
theorem claim_C4_witness :
    ∃ out, deduplicate_meetings (fun _ => none)
        ⟨true, true, true, true, true,
          [⟨none, none, some "Jake Lynch", none, none, []⟩,
           ⟨none, none, some "Brad Sherman", none, none, []⟩]⟩ = some out ∧
      out.length =
        (((⟨true, true, true, true, true,
          [⟨none, none, some "Jake Lynch", none, none, []⟩,
           ⟨none, none, some "Brad Sherman", none, none, []⟩]⟩ : MTable).rows.map
          fun r => (startDate (fun _ => none) r,
            safeOwner ⟨true, true, true, true, true,
              [⟨none, none, some "Jake Lynch", none, none, []⟩,
               ⟨none, none, some "Brad Sherman", none, none, []⟩]⟩ r)).dedup).length :=
  claim_C4 (fun _ => none)
    ⟨true, true, true, true, true,
      [⟨none, none, some "Jake Lynch", none, none, []⟩,
       ⟨none, none, some "Brad Sherman", none, none, []⟩]⟩
    rfl rfl (by decide) (by decide)

theorem outcomeFoldl_spec :
    ∀ (vs : List String) (v : String),
      (vs.foldl (fun best x =>
          if outcomePrio best < outcomePrio x then x else best) v) ∈ v :: vs ∧
      ∀ x ∈ v :: vs, outcomePrio x ≤
        outcomePrio (vs.foldl (fun best x =>
          if outcomePrio best < outcomePrio x then x else best) v) := by
  intro vs
  induction vs with
  | nil =>
    intro v
    refine ⟨List.mem_cons_self _ _, ?_⟩
    intro x hx
    rcases List.mem_cons.mp hx with rfl | hx
    · exact le_refl _
    · simp at hx
  | cons y ys ih =>
    intro v
    simp only [List.foldl_cons]
    obtain ⟨ihmem, ihle⟩ := ih (if outcomePrio v < outcomePrio y then y else v)
    constructor
    · rcases List.mem_cons.mp ihmem with heq | hmem
      · rw [heq]
        by_cases h : outcomePrio v < outcomePrio y
        · simp only [h, if_true]
          exact List.mem_cons_of_mem _ (List.mem_cons_self _ _)
        · simp only [h, if_false]
          exact List.mem_cons_self _ _
      · exact List.mem_cons_of_mem _ (List.mem_cons_of_mem _ hmem)
    · intro x hx
      have hstep : outcomePrio v ≤
          outcomePrio (if outcomePrio v < outcomePrio y then y else v) := by
        by_cases h : outcomePrio v < outcomePrio y
        · simp only [h, if_true]; exact le_of_lt h
        · simp only [h, if_false]; exact le_refl _
      have hstepy : outcomePrio y ≤
          outcomePrio (if outcomePrio v < outcomePrio y then y else v) := by
        by_cases h : outcomePrio v < outcomePrio y
        · simp only [h, if_true]; exact le_refl _
        · simp only [h, if_false]; exact le_of_not_lt h
      have hbase := ihle (if outcomePrio v < outcomePrio y then y else v)
        (List.mem_cons_self _ _)
      rcases List.mem_cons.mp hx with rfl | hx2
      · exact le_trans hstep hbase
      · rcases List.mem_cons.mp hx2 with rfl | hx3
        · exact le_trans hstepy hbase
        · exact ihle x (List.mem_cons_of_mem _ hx3)

/-- `bestOutcome` picks a group member of maximal outcome priority. -/
theorem bestOutcome_max (vals : List String) (hv : vals ≠ []) :
    bestOutcome vals ∈ vals ∧
    ∀ v ∈ vals, outcomePrio v ≤ outcomePrio (bestOutcome vals) := by
  match vals with
  | [] => exact absurd rfl hv
  | v :: vs => exact outcomeFoldl_spec vs v

/-- **C5** A table of exactly two meeting rows named `"[Gong] Intro Call"`
and `"Intro Call"` with the same start-time calendar date, owner and company
deduplicates to exactly one row with `has_gong = true` and
`meeting_name = "Intro Call"`; and on any merged group `bestOutcome` (the
outcome merge rule) returns a group value of maximal rank in the fixed order
Completed > No Show > Canceled > Rescheduled > Scheduled > blank. -/
theorem claim_C5 (dparse : String → Option Int) (r1 r2 : Meeting)
    (h1 : r1.meeting_name = some "[Gong] Intro Call")
    (h2 : r2.meeting_name = some "Intro Call")
    (hd : r1.start.bind dparse = r2.start.bind dparse)
    (how : r1.owner = r2.owner)
    (hco : r1.company = r2.company) :
    (∃ m : MMeeting,
      deduplicate_meetings dparse ⟨true, true, true, true, true, [r1, r2]⟩ =
        some [m] ∧ m.has_gong = true ∧ m.meeting_name = some "Intro Call")
    ∧ ∀ vals : List String, vals ≠ [] →
        bestOutcome vals ∈ vals ∧
        ∀ v ∈ vals, outcomePrio v ≤ outcomePrio (bestOutcome vals) := by
  refine ⟨?_, fun vals hv => bestOutcome_max vals hv⟩
  have hn1 : norm_meeting_name r1.meeting_name = "Intro Call" := by
    rw [h1]; decide
  have hn2 : norm_meeting_name r2.meeting_name = "Intro Call" := by
    rw [h2]; decide
  have hkey : nkey dparse ⟨true, true, true, true, true, [r1, r2]⟩ r2 =
      nkey dparse ⟨true, true, true, true, true, [r1, r2]⟩ r1 := by
    unfold nkey startDate safeOwner
    rw [hn1, hn2, ← hd, how]
  have hnamed : ([r1, r2].filter fun r =>
      decide (norm_meeting_name r.meeting_name ≠ "")) = [r1, r2] := by
    simp [List.filter_cons, hn1, hn2]
  have hblanks : ([r1, r2].filter fun r =>
      decide (norm_meeting_name r.meeting_name = "")) = [] := by
    simp [List.filter_cons, hn1, hn2]
  have hgk : groupByKey (nkey dparse ⟨true, true, true, true, true, [r1, r2]⟩)
      [r1, r2] =
      [(nkey dparse ⟨true, true, true, true, true, [r1, r2]⟩ r1, [r1, r2])] := by
    rw [groupByKey_cons]
    rw [show ([r2].filter fun y =>
        decide (nkey dparse ⟨true, true, true, true, true, [r1, r2]⟩ y =
          nkey dparse ⟨true, true, true, true, true, [r1, r2]⟩ r1)) = [r2] by
      simp [List.filter_cons, hkey]]
    rw [show ([r2].filter fun y =>
        decide (nkey dparse ⟨true, true, true, true, true, [r1, r2]⟩ y ≠
          nkey dparse ⟨true, true, true, true, true, [r1, r2]⟩ r1)) = [] by
      simp [List.filter_cons, hkey]]
    rfl
  have hmg : meetingGroups dparse ⟨true, true, true, true, true, [r1, r2]⟩ =
      [(nkey dparse ⟨true, true, true, true, true, [r1, r2]⟩ r1, [r1, r2])] := by
    unfold meetingGroups
    dsimp only
    rw [hnamed, hblanks, hgk]
    rfl
  have hdedup : deduplicate_meetings dparse
      ⟨true, true, true, true, true, [r1, r2]⟩ =
      some [mergeGroup dparse ⟨true, true, true, true, true, [r1, r2]⟩
        (nkey dparse ⟨true, true, true, true, true, [r1, r2]⟩ r1) [r1, r2]] := by
    unfold deduplicate_meetings
    rw [if_neg (by simp), if_neg (by simp)]
    rw [hmg]
    rfl
  refine ⟨mergeGroup dparse ⟨true, true, true, true, true, [r1, r2]⟩
    (nkey dparse ⟨true, true, true, true, true, [r1, r2]⟩ r1) [r1, r2],
    hdedup, ?_, ?_⟩
  · show ([r1, r2].any hasGong) = true
    have hg1 : hasGong r1 = true := by
      unfold hasGong fillStr
      rw [h1]
      decide
    simp [List.any_cons, hg1]
  · show some (if (nkey dparse ⟨true, true, true, true, true, [r1, r2]⟩ r1).1 =
        "_blank" then ""
      else (nkey dparse ⟨true, true, true, true, true, [r1, r2]⟩ r1).1) =
      some "Intro Call"
    have hk1 : (nkey dparse ⟨true, true, true, true, true, [r1, r2]⟩ r1).1 =
        "Intro Call" := by
      unfold nkey
      exact hn1
    rw [hk1]
    decide

/-- Witness for C5 at two fully concrete rows. -/
theorem claim_C5_witness :
    (∃ m : MMeeting,
      deduplicate_meetings (fun _ => some 20250106)
        ⟨true, true, true, true, true,
          [⟨some "[Gong] Intro Call", some "2025-01-06", some "Jake Lynch",
            some "Acme", some "Completed", []⟩,
           ⟨some "Intro Call", some "2025-01-06", some "Jake Lynch",
            some "Acme", some "Scheduled", []⟩]⟩ =
        some [m] ∧ m.has_gong = true ∧ m.meeting_name = some "Intro Call")
    ∧ ∀ vals : List String, vals ≠ [] →
        bestOutcome vals ∈ vals ∧
        ∀ v ∈ vals, outcomePrio v ≤ outcomePrio (bestOutcome vals) :=
  claim_C5 (fun _ => some 20250106)
    ⟨some "[Gong] Intro Call", some "2025-01-06", some "Jake Lynch",
      some "Acme", some "Completed", []⟩
    ⟨some "Intro Call", some "2025-01-06", some "Jake Lynch",
      some "Acme", some "Scheduled", []⟩
    rfl rfl rfl rfl rfl

/-! ## C7 and C8: column normalization
(`to_snake_case`, `normalize_columns`, `_deduplicate_columns`,
`strip_whitespace`, `coerce_dates`, `coerce_numerics`, `normalize_dataframe`)

Frames are modelled column-major: a list of (name, column) pairs where a
column is object- (string-), datetime- or numeric-dtyped.  `pd.to_datetime`
and `pd.to_numeric` cell conversions are the external `CoerceFns`.
`strip_whitespace` returns `none` when a column label is duplicated: the
source evaluates `df[col].dtype` for every label, and on a duplicated label
`df[col]` is a DataFrame, which has no `.dtype` (AttributeError).  The two
coercion passes run after `strip_whitespace` in `normalize_dataframe`, so
they only ever see distinct labels; their duplicate-label crash is therefore
not modelled. -/

inductive PCol
  | obj (cells : List (Option String))
  | dt (cells : List (Option Int))
  | num (cells : List (Option ℚ))
  deriving Repr, DecidableEq

structure NTable where
  cols : List (String × PCol)
  deriving Repr, DecidableEq

def pcolLen : PCol → Nat
  | .obj cells => cells.length
  | .dt cells => cells.length
  | .num cells => cells.length

def ntEmpty (t : NTable) : Bool :=
  match t.cols with
  | [] => true
  | c :: _ => pcolLen c.2 = 0

/-- A character replaced by `_` in `to_snake_case`
(the class `[\s\-\./()]`). -/
def isSep (c : Char) : Bool :=
  c.isWhitespace || c = '-' || c = '.' || c = '/' || c = '(' || c = ')'

/-- Replace each maximal run of separator characters by one `_`
(`re.sub(sep_class_plus, "_", s)`); the flag tracks whether the previous
character was in a run. -/
def repSeps : List Char → Bool → List Char
  | [], _ => []
  | c :: cs, inRun =>
      if isSep c then
        if inRun then repSeps cs true else '_' :: repSeps cs true
      else c :: repSeps cs false

/-- Insert `_` between a lowercase/digit character and an uppercase one
(`re.sub("([a-z0-9])([A-Z])", ...)`; the two classes are disjoint, so
non-overlapping scanning equals pairwise insertion). -/
def camelSplit : List Char → List Char
  | [] => []
  | [c] => [c]
  | c1 :: c2 :: cs =>
      if (c1.isLower || c1.isDigit) && c2.isUpper
      then c1 :: '_' :: camelSplit (c2 :: cs)
      else c1 :: camelSplit (c2 :: cs)

/-- Collapse runs of `_` (`re.sub("_+", "_", s)`). -/
def repU : List Char → Bool → List Char
  | [], _ => []
  | c :: cs, prevU =>
      if c = '_' then
        if prevU then repU cs true else '_' :: repU cs true
      else c :: repU cs false

def to_snake_case (s : String) : String :=
  let l1 := repSeps (pstrip s).data false
  let l2 := camelSplit l1
  let l3 := (repU l2 false).map Char.toLower
  ⟨(l3.dropWhile (· = '_')).reverse.dropWhile (· = '_') |>.reverse⟩

def COLUMN_ALIASES : List (String × String) :=
  [("create_date", "created_date"),
   ("associated_company_name", "company_name"),
   ("hub_spot_team", "hubspot_team"),
   ("opp_owner", "hubspot_owner_name"),
   ("opp_type_no_blanks", "opp_type"),
   ("is_deal_closed?", "is_deal_closed"),
   ("activity_assigned_to", "activity_assigned_to"),
   ("activity_created_by", "activity_created_by"),
   ("body_preview_truncated", "body_preview"),
   ("created_at", "created_date"),
   ("completed_at", "completed_at"),
   ("last_modified_at", "last_modified_date"),
   ("notes_preview", "notes_preview"),
   ("last_modified_date", "last_modified_date"),
   ("email_id", "email_id"),
   ("email_from_address", "email_from_address"),
   ("email_to_address", "email_to_address"),
   ("number_of_email_opens", "email_opens"),
   ("number_of_email_clicks", "email_clicks"),
   ("number_of_email_replies", "email_replies"),
   ("email_open_rate", "email_open_rate"),
   ("email_click_rate", "email_click_rate"),
   ("email_reply_rate", "email_reply_rate"),
   ("email_cc_address", "email_cc_address"),
   ("first_name_activity_assigned_to", "owner_first_name"),
   ("last_name_activity_assigned_to", "owner_last_name"),
   ("created_by_user_id", "created_by_user_id"),
   ("updated_by_user_id", "updated_by_user_id"),
   ("note_id", "note_id"),
   ("note_body", "note_body"),
   ("deal_name", "deal_name"),
   ("first_name_ticket_owner", "ticket_owner_first_name")]

/-- `df.rename(columns=COLUMN_ALIASES)` on one name. -/
def aliasApply (n : String) : String := (alookup COLUMN_ALIASES n).getD n

/-- `_deduplicate_columns` on the name list; `seen` maps a name to its
occurrence count so far, the k-th repeat becomes `name_k`. -/
def dedupNamesGo : List String → List (String × Nat) → List String
  | [], _ => []
  | c :: cs, seen =>
      match klookup seen c with
      | some k => (c ++ "_" ++ toString (k + 1)) :: dedupNamesGo cs (upsert c (k + 1) seen)
      | none => c :: dedupNamesGo cs (upsert c 1 seen)

/-- The column-name filter of `normalize_columns`:
`bool(str(c).strip()) and not str(c).startswith("unnamed")`. -/
def keepName (n : String) : Bool :=
  decide (pstrip n ≠ "") && !pstarts n "unnamed"

def normalize_columns (t : NTable) : NTable :=
  if ntEmpty t then t
  else
    let names1 := t.cols.map fun c => to_snake_case c.1
    let names2 := dedupNamesGo names1 []
    let names3 := names2.map aliasApply
    ⟨(names3.zip (t.cols.map Prod.snd)).filter fun c => keepName c.1⟩

/-- The `.str.strip()` + null-spelling replacement on one object cell. -/
def stripCell (v : Option String) : Option String :=
  match v with
  | none => none
  | some s =>
      let t := pstrip s
      if t = "nan" || t = "" || t = "None" || t = "none" then none else some t

def stripCol : PCol → PCol
  | .obj cells => .obj (cells.map stripCell)
  | .dt cells => .dt cells
  | .num cells => .num cells

def strip_whitespace (t : NTable) : Option NTable :=
  if ntEmpty t then some t
  else if (t.cols.map Prod.fst).Nodup then
    some ⟨t.cols.map fun c => (c.1, stripCol c.2)⟩
  else none

/-- External `pd.to_datetime` / `pd.to_numeric` cell behaviour. -/
structure CoerceFns where
  parseDate : String → Option Int
  parseNum : String → Option ℚ
  numToDate : ℚ → Option Int
  dateToNum : Int → Option ℚ

def DATE_COLUMNS : List String :=
  ["created_date", "close_date", "activity_date", "meeting_start_time",
   "meeting_end_time", "completed_at", "due_date", "last_modified_date",
   "create_date", "last_activity_date", "next_activity_date"]

def NUMERIC_COLUMNS : List String :=
  ["amount", "deal_id", "company_id", "call_duration", "ticket_id",
   "opp_age", "forecast_probability", "call_id"]

def isDateCol (n : String) : Bool :=
  decide (n ∈ DATE_COLUMNS) || pends n "_date" || pends n "_time" || pends n "_at"

def isNumCol (n : String) : Bool :=
  decide (n ∈ NUMERIC_COLUMNS) || pends n "_amount" || pends n "_duration"

def dateCoerceCol (f : CoerceFns) : PCol → PCol
  | .obj cells => .dt (cells.map fun v => v.bind f.parseDate)
  | .dt cells => .dt cells
  | .num cells => .dt (cells.map fun v => v.bind f.numToDate)

def numCoerceCol (f : CoerceFns) : PCol → PCol
  | .obj cells => .num (cells.map fun v => v.bind f.parseNum)
  | .num cells => .num cells
  | .dt cells => .num (cells.map fun v => v.bind f.dateToNum)

def coerce_dates (f : CoerceFns) (t : NTable) : NTable :=
  if ntEmpty t then t
  else ⟨t.cols.map fun c => if isDateCol c.1 then (c.1, dateCoerceCol f c.2) else c⟩

def coerce_numerics (f : CoerceFns) (t : NTable) : NTable :=
  if ntEmpty t then t
  else ⟨t.cols.map fun c => if isNumCol c.1 then (c.1, numCoerceCol f c.2) else c⟩

/-- `normalize_dataframe`; `none` models the run raising inside
`strip_whitespace` (duplicate column labels after alias renaming). -/
def normalize_dataframe (f : CoerceFns) (t : NTable) : Option NTable :=
  if ntEmpty t then some t
  else
    (strip_whitespace (normalize_columns t)).map fun t2 =>
      coerce_numerics f (coerce_dates f t2)

theorem klookup_upsert_ne {κ ν : Type} [DecidableEq κ] {k c : κ}
    (hne : k ≠ c) (v : ν) (l : List (κ × ν)) :
    klookup (upsert c v l) k = klookup l k := by
  induction l with
  | nil => simp [upsert, klookup, hne]
  | cons p rest ih =>
    cases p with
    | mk k' v' =>
      by_cases h : c = k'
      · subst h
        simp [upsert, klookup, hne]
      · by_cases h2 : k = k'
        · subst h2
          simp [upsert, h, klookup]
        · simp [upsert, h, klookup, h2, ih]

/-- On duplicate-free names the suffixing pass is the identity. -/
theorem dedupNamesGo_id {s : List String} (hs : s.Nodup) :
    ∀ seen, (∀ n ∈ s, klookup seen n = none) → dedupNamesGo s seen = s := by
  induction s with
  | nil => intro seen _; rfl
  | cons c cs ih =>
    intro seen hseen
    have hc : klookup seen c = none := hseen c (List.mem_cons_self _ _)
    rw [dedupNamesGo, hc]
    show c :: dedupNamesGo cs (upsert c 1 seen) = c :: cs
    congr 1
    apply ih (List.Nodup.of_cons hs)
    intro n hn
    have hne : n ≠ c := by
      rintro rfl
      exact (List.nodup_cons.mp hs).1 hn
    rw [klookup_upsert_ne hne]
    exact hseen n (List.mem_cons_of_mem _ hn)

theorem zip_map_fst_snd_eq {α β : Type} (l : List (α × β)) :
    (l.map Prod.fst).zip (l.map Prod.snd) = l := by
  induction l with
  | nil => rfl
  | cons p rest ih => simp [ih]

/-- **C7 counterexample** Raw headers "Associated Company Name" and
"Company Name" are distinct at the snake_case stage (so not suffixed) but the
alias table maps both to `company_name`: `normalize_columns` emits two columns
with the same name. -/
theorem claim_C7_counterexample :
    ((normalize_columns ⟨[("Associated Company Name", PCol.obj [some "A"]),
        ("Company Name", PCol.obj [some "B"])]⟩).cols.map Prod.fst) =
      ["company_name", "company_name"]
    ∧ ¬ ((normalize_columns ⟨[("Associated Company Name", PCol.obj [some "A"]),
        ("Company Name", PCol.obj [some "B"])]⟩).cols.map Prod.fst).Nodup := by
  constructor <;> decide

/-- **C7 (amended)** Suffixing deduplicates the snake_case-stage names only:
when the snake-cased headers are pairwise distinct the `_2`, `_3` pass leaves
them unchanged, and the final column names are distinct provided the alias
renaming (applied after the suffixing pass) introduces no collision.
Alias-induced collisions are not suffixed (see the counterexample). -/
theorem claim_C7 (t : NTable)
    (hsnake : (t.cols.map fun c => to_snake_case c.1).Nodup)
    (halias : ((t.cols.map fun c => to_snake_case c.1).map aliasApply).Nodup) :
    ((normalize_columns t).cols.map Prod.fst).Nodup
    ∧ dedupNamesGo (t.cols.map fun c => to_snake_case c.1) [] =
      t.cols.map fun c => to_snake_case c.1 := by
  have hdid : dedupNamesGo (t.cols.map fun c => to_snake_case c.1) [] =
      t.cols.map fun c => to_snake_case c.1 :=
    dedupNamesGo_id hsnake [] (fun n _ => rfl)
  refine ⟨?_, hdid⟩
  unfold normalize_columns
  by_cases he : ntEmpty t
  · rw [if_pos he]
    have hmm : ((t.cols.map Prod.fst).map to_snake_case).Nodup := by
      rw [List.map_map]
      exact hsnake
    exact List.Nodup.of_map to_snake_case hmm
  · rw [if_neg he]
    dsimp only
    rw [hdid]
    have hsub : List.Sublist
        (((((t.cols.map fun c => to_snake_case c.1).map aliasApply).zip
          (t.cols.map Prod.snd)).filter fun c => keepName c.1).map Prod.fst)
        ((((t.cols.map fun c => to_snake_case c.1).map aliasApply).zip
          (t.cols.map Prod.snd)).map Prod.fst) :=
      List.Sublist.map _ (List.filter_sublist _)
    have hfst : ((((t.cols.map fun c => to_snake_case c.1).map aliasApply).zip
        (t.cols.map Prod.snd)).map Prod.fst) =
        ((t.cols.map fun c => to_snake_case c.1).map aliasApply) := by
      apply List.map_fst_zip
      simp
    rw [hfst] at hsub
    exact List.Nodup.sublist hsub halias

/-- Witness for C7 at a one-column table. -/
theorem claim_C7_witness :
    ((normalize_columns ⟨[("Create Date", PCol.obj [some "x"])]⟩).cols.map
      Prod.fst).Nodup
    ∧ dedupNamesGo ((⟨[("Create Date", PCol.obj [some "x"])]⟩ : NTable).cols.map
        fun c => to_snake_case c.1) [] =
      (⟨[("Create Date", PCol.obj [some "x"])]⟩ : NTable).cols.map
        fun c => to_snake_case c.1 :=
  claim_C7 ⟨[("Create Date", PCol.obj [some "x"])]⟩ (by decide) (by decide)

/-- **C8 counterexample** The headers "Associated Company Name" and
"Company Name" alias-collide; `strip_whitespace` then evaluates
`df[col].dtype` on the duplicated label, a DataFrame, and the run raises —
`normalize_dataframe` has no value at all here, so it cannot be idempotent on
every raw table. -/
theorem claim_C8_counterexample :
    normalize_dataframe
        ⟨fun _ => none, fun _ => none, fun _ => none, fun _ => none⟩
        ⟨[("Associated Company Name", PCol.obj [some "A"]),
          ("Company Name", PCol.obj [some "B"])]⟩ = none
    ∧ ¬ ∃ y, normalize_dataframe
          ⟨fun _ => none, fun _ => none, fun _ => none, fun _ => none⟩
          ⟨[("Associated Company Name", PCol.obj [some "A"]),
            ("Company Name", PCol.obj [some "B"])]⟩ = some y ∧
        normalize_dataframe
          ⟨fun _ => none, fun _ => none, fun _ => none, fun _ => none⟩ y =
          some y := by
  have h1 : normalize_dataframe
      ⟨fun _ => none, fun _ => none, fun _ => none, fun _ => none⟩
      ⟨[("Associated Company Name", PCol.obj [some "A"]),
        ("Company Name", PCol.obj [some "B"])]⟩ = none := by decide
  refine ⟨h1, ?_⟩
  rintro ⟨y, hy, -⟩
  rw [h1] at hy
  cases hy

theorem dropWhile_head_false {α : Type} (p : α → Bool) :
    ∀ (l : List α) (c : α), (l.dropWhile p).head? = some c → p c = false := by
  intro l
  induction l with
  | nil => intro c hc; cases hc
  | cons x xs ih =>
    intro c hc
    by_cases h : p x = true
    · rw [List.dropWhile_cons, if_pos h] at hc
      exact ih c hc
    · rw [List.dropWhile_cons, if_neg h] at hc
      simp only [List.head?_cons] at hc
      injection hc with hc
      subst hc
      simpa using h

theorem dropWhile_idem {α : Type} (p : α → Bool) (l : List α) :
    (l.dropWhile p).dropWhile p = l.dropWhile p := by
  cases h : l.dropWhile p with
  | nil => rfl
  | cons c cs =>
    have hc : p c = false := by
      apply dropWhile_head_false p l
      rw [h]
      rfl
    rw [List.dropWhile_cons, if_neg (by simp [hc])]

/-- One full strip of a character list. -/
def stripL (p : Char → Bool) (l : List Char) : List Char :=
  ((l.dropWhile p).reverse.dropWhile p).reverse

theorem stripL_head (p : Char → Bool) (l : List Char) (c : Char)
    (hc : (stripL p l).head? = some c) : p c = false := by
  unfold stripL at hc
  rcases hpre : ((l.dropWhile p).reverse.dropWhile p).reverse with _ | ⟨h0, rest⟩
  · rw [hpre] at hc; cases hc
  · rw [hpre] at hc
    simp only [List.head?_cons] at hc
    injection hc with hc
    subst hc
    have hsuf : (l.dropWhile p).reverse.dropWhile p <:+ (l.dropWhile p).reverse :=
      List.dropWhile_suffix p
    have hpre2 : ((l.dropWhile p).reverse.dropWhile p).reverse <+: l.dropWhile p := by
      have h := List.reverse_prefix.mpr hsuf
      simpa using h
    rw [hpre] at hpre2
    rcases hpre2 with ⟨tl, htl⟩
    apply dropWhile_head_false p l
    rw [← htl]
    rfl

theorem stripL_idem (p : Char → Bool) (l : List Char) :
    stripL p (stripL p l) = stripL p l := by
  have h1 : (stripL p l).dropWhile p = stripL p l := by
    rcases hr : stripL p l with _ | ⟨c, cs⟩
    · rfl
    · have hc : p c = false := stripL_head p l c (by rw [hr]; rfl)
      rw [List.dropWhile_cons, if_neg (by simp [hc])]
  have h2 : (stripL p l).reverse.dropWhile p = (stripL p l).reverse := by
    have hrev : (stripL p l).reverse = (l.dropWhile p).reverse.dropWhile p := by
      unfold stripL
      rw [List.reverse_reverse]
    rw [hrev, dropWhile_idem, ← hrev]
  show (((stripL p l).dropWhile p).reverse.dropWhile p).reverse = stripL p l
  rw [h1, h2, List.reverse_reverse]

theorem pstrip_idem (s : String) : pstrip (pstrip s) = pstrip s :=
  calc pstrip (pstrip s)
      = ⟨stripL Char.isWhitespace (stripL Char.isWhitespace s.data)⟩ := rfl
    _ = ⟨stripL Char.isWhitespace s.data⟩ :=
        congrArg String.mk (stripL_idem Char.isWhitespace s.data)
    _ = pstrip s := rfl

theorem stripCell_idem (v : Option String) :
    stripCell (stripCell v) = stripCell v := by
  cases v with
  | none => rfl
  | some s =>
    have key : ∀ u : String, stripCell (some u) =
        if (decide (pstrip u = "nan") || decide (pstrip u = "") ||
            decide (pstrip u = "None") || decide (pstrip u = "none")) = true
        then none else some (pstrip u) := fun u => rfl
    rw [key s]
    by_cases h : (decide (pstrip s = "nan") || decide (pstrip s = "") ||
        decide (pstrip s = "None") || decide (pstrip s = "none")) = true
    · rw [if_pos h]
      rfl
    · rw [if_neg h, key (pstrip s), pstrip_idem, if_neg h]

/-- Two concrete strings neither of which is a suffix of the other cannot
both be suffixes of the same name. -/
theorem suffix_incomp (n a b : String)
    (hab : a.data.isSuffixOf b.data = false)
    (hba : b.data.isSuffixOf a.data = false)
    (ha : pends n a = true) (hb : pends n b = true) : False := by
  unfold pends at ha hb
  rw [List.isSuffixOf_iff_suffix] at ha hb
  rcases List.suffix_or_suffix_of_suffix ha hb with h | h
  · rw [← List.isSuffixOf_iff_suffix] at h
    rw [h] at hab
    cases hab
  · rw [← List.isSuffixOf_iff_suffix] at h
    rw [h] at hba
    cases hba

/-- A column name never matches both the date pattern and the numeric
pattern of the coercion passes. -/
theorem date_num_disjoint (n : String) (hd : isDateCol n = true) :
    isNumCol n = false := by
  cases hn : isNumCol n
  · rfl
  · exfalso
    have dmem : ∀ m ∈ DATE_COLUMNS, isNumCol m = false := by decide
    have nmem : ∀ m ∈ NUMERIC_COLUMNS, isDateCol m = false := by decide
    have hd4 : decide (n ∈ DATE_COLUMNS) = true ∨ pends n "_date" = true ∨
        pends n "_time" = true ∨ pends n "_at" = true := by
      unfold isDateCol at hd
      rcases Bool.or_eq_true_iff.mp hd with h1 | h4
      · rcases Bool.or_eq_true_iff.mp h1 with h2 | h3
        · rcases Bool.or_eq_true_iff.mp h2 with h5 | h6
          · exact Or.inl h5
          · exact Or.inr (Or.inl h6)
        · exact Or.inr (Or.inr (Or.inl h3))
      · exact Or.inr (Or.inr (Or.inr h4))
    have hn3 : decide (n ∈ NUMERIC_COLUMNS) = true ∨ pends n "_amount" = true ∨
        pends n "_duration" = true := by
      unfold isNumCol at hn
      rcases Bool.or_eq_true_iff.mp hn with h1 | h3
      · rcases Bool.or_eq_true_iff.mp h1 with h2 | h4
        · exact Or.inl h2
        · exact Or.inr (Or.inl h4)
      · exact Or.inr (Or.inr h3)
    rcases hd4 with hmem | hdate | htime | hat
    · have hfalse := dmem n (of_decide_eq_true hmem)
      rw [hn] at hfalse
      cases hfalse
    · rcases hn3 with hnmem | hamt | hdur
      · have hfalse := nmem n (of_decide_eq_true hnmem)
        rw [hd] at hfalse
        cases hfalse
      · exact suffix_incomp n "_date" "_amount" (by decide) (by decide) hdate hamt
      · exact suffix_incomp n "_date" "_duration" (by decide) (by decide) hdate hdur
    · rcases hn3 with hnmem | hamt | hdur
      · have hfalse := nmem n (of_decide_eq_true hnmem)
        rw [hd] at hfalse
        cases hfalse
      · exact suffix_incomp n "_time" "_amount" (by decide) (by decide) htime hamt
      · exact suffix_incomp n "_time" "_duration" (by decide) (by decide) htime hdur
    · rcases hn3 with hnmem | hamt | hdur
      · have hfalse := nmem n (of_decide_eq_true hnmem)
        rw [hd] at hfalse
        cases hfalse
      · exact suffix_incomp n "_at" "_amount" (by decide) (by decide) hat hamt
      · exact suffix_incomp n "_at" "_duration" (by decide) (by decide) hat hdur

/-- The combined effect of the strip and the two coercion passes on one
column of the first normalization pass. -/
def colTransform (f : CoerceFns) (c : String × PCol) : String × PCol :=
  let c1 := (c.1, stripCol c.2)
  let c2 := if isDateCol c.1 then (c.1, dateCoerceCol f c1.2) else c1
  if isNumCol c.1 then (c.1, numCoerceCol f c2.2) else c2

theorem colTransform_fst (f : CoerceFns) (c : String × PCol) :
    (colTransform f c).1 = c.1 := by
  unfold colTransform
  by_cases h1 : isDateCol c.1 <;> by_cases h2 : isNumCol c.1 <;> simp [h1, h2]

theorem pcolLen_strip (c : PCol) : pcolLen (stripCol c) = pcolLen c := by
  cases c <;> simp [stripCol, pcolLen]

theorem pcolLen_date (f : CoerceFns) (c : PCol) :
    pcolLen (dateCoerceCol f c) = pcolLen c := by
  cases c <;> simp [dateCoerceCol, pcolLen]

theorem pcolLen_num (f : CoerceFns) (c : PCol) :
    pcolLen (numCoerceCol f c) = pcolLen c := by
  cases c <;> simp [numCoerceCol, pcolLen]

theorem colTransform_len (f : CoerceFns) (c : String × PCol) :
    pcolLen (colTransform f c).2 = pcolLen c.2 := by
  unfold colTransform
  by_cases h1 : isDateCol c.1 <;> by_cases h2 : isNumCol c.1 <;>
    simp [h1, h2, pcolLen_strip, pcolLen_date, pcolLen_num]

theorem ntEmpty_map {g : String × PCol → String × PCol}
    (hlen : ∀ c, pcolLen (g c).2 = pcolLen c.2) (t : NTable) :
    ntEmpty ⟨t.cols.map g⟩ = ntEmpty t := by
  cases h : t.cols with
  | nil => simp [ntEmpty, h]
  | cons c cs => simp [ntEmpty, h, hlen c]

theorem strip_dateCoerce (f : CoerceFns) (x : PCol) :
    stripCol (dateCoerceCol f x) = dateCoerceCol f x := by
  cases x <;> rfl

theorem strip_numCoerce (f : CoerceFns) (x : PCol) :
    stripCol (numCoerceCol f x) = numCoerceCol f x := by
  cases x <;> rfl

theorem date_dateCoerce (f : CoerceFns) (x : PCol) :
    dateCoerceCol f (dateCoerceCol f x) = dateCoerceCol f x := by
  cases x <;> rfl

theorem num_numCoerce (f : CoerceFns) (x : PCol) :
    numCoerceCol f (numCoerceCol f x) = numCoerceCol f x := by
  cases x <;> rfl

theorem strip_stripCol (x : PCol) : stripCol (stripCol x) = stripCol x := by
  cases x with
  | obj cells =>
    show PCol.obj ((cells.map stripCell).map stripCell) = PCol.obj (cells.map stripCell)
    rw [List.map_map]
    congr 1
    apply List.map_congr_left
    intro v _
    exact stripCell_idem v
  | dt cells => rfl
  | num cells => rfl

/-- The once-transformed column is a fixed point of all three passes. -/
theorem colTransform_fixed (f : CoerceFns) (c : String × PCol) :
    stripCol (colTransform f c).2 = (colTransform f c).2
    ∧ (isDateCol c.1 = true →
        dateCoerceCol f (colTransform f c).2 = (colTransform f c).2)
    ∧ (isNumCol c.1 = true →
        numCoerceCol f (colTransform f c).2 = (colTransform f c).2) := by
  by_cases h1 : isDateCol c.1
  · have h2 : isNumCol c.1 = false := date_num_disjoint c.1 h1
    have hct : (colTransform f c).2 = dateCoerceCol f (stripCol c.2) := by
      simp [colTransform, h1, h2]
    rw [hct]
    exact ⟨strip_dateCoerce f _, fun _ => date_dateCoerce f _,
      fun hn => by rw [hn] at h2; cases h2⟩
  · by_cases h2 : isNumCol c.1
    · have hct : (colTransform f c).2 = numCoerceCol f (stripCol c.2) := by
        simp [colTransform, h1, h2]
      rw [hct]
      exact ⟨strip_numCoerce f _, fun hd => absurd hd h1,
        fun _ => num_numCoerce f _⟩
    · have hct : (colTransform f c).2 = stripCol c.2 := by
        simp [colTransform, h1, h2]
      rw [hct]
      exact ⟨strip_stripCol _, fun hd => absurd hd h1, fun hn => absurd hn h2⟩

/-- Every surviving column name passed `normalize_columns`'s name filter. -/
theorem normalize_columns_keep (t : NTable) (he : ntEmpty t = false) :
    ∀ n ∈ (normalize_columns t).cols.map Prod.fst, keepName n = true := by
  unfold normalize_columns
  rw [if_neg (by simp [he])]
  dsimp only
  intro n hn
  rcases List.mem_map.mp hn with ⟨pair, hpair, rfl⟩
  exact (List.mem_filter.mp hpair).2

/-- `normalize_columns` is the identity on a frame whose names are already
canonical: distinct, snake-stable, alias-stable and all kept. -/
theorem normalize_columns_fixed (y : NTable) (hey : ntEmpty y = false)
    (hnd : (y.cols.map Prod.fst).Nodup)
    (hsnake : ∀ n ∈ y.cols.map Prod.fst, to_snake_case n = n)
    (halias : ∀ n ∈ y.cols.map Prod.fst, aliasApply n = n)
    (hkeep : ∀ n ∈ y.cols.map Prod.fst, keepName n = true) :
    normalize_columns y = y := by
  unfold normalize_columns
  rw [if_neg (by simp [hey])]
  dsimp only
  have e1 : (y.cols.map fun c => to_snake_case c.1) = y.cols.map Prod.fst := by
    apply List.map_congr_left
    intro c hc
    exact hsnake c.1 (List.mem_map_of_mem _ hc)
  rw [e1, dedupNamesGo_id hnd [] (fun n _ => rfl)]
  have e2 : (y.cols.map Prod.fst).map aliasApply = y.cols.map Prod.fst := by
    conv_rhs => rw [← List.map_id (y.cols.map Prod.fst)]
    apply List.map_congr_left
    intro n hn
    exact halias n hn
  rw [e2, zip_map_fst_snd_eq]
  have e3 : y.cols.filter (fun c => keepName c.1) = y.cols := by
    apply List.filter_eq_self.mpr
    intro c hc
    exact hkeep c.1 (List.mem_map_of_mem _ hc)
  rw [e3]

/-- The strip and the two coercions applied to the first-pass output, as a
single column map. -/
theorem coerce_chain (f : CoerceFns) (t1 : NTable) (he1 : ntEmpty t1 = false) :
    coerce_numerics f (coerce_dates f ⟨t1.cols.map fun c => (c.1, stripCol c.2)⟩) =
      ⟨t1.cols.map (colTransform f)⟩ := by
  have hs : ntEmpty ⟨t1.cols.map fun c => (c.1, stripCol c.2)⟩ = false := by
    rw [ntEmpty_map (fun c => pcolLen_strip c.2) t1]
    exact he1
  unfold coerce_dates
  rw [if_neg (by simp [hs])]
  have hlen2 : ∀ c : String × PCol,
      pcolLen (((fun c => if isDateCol c.1 then (c.1, dateCoerceCol f c.2) else c) ∘
        fun c => (c.1, stripCol c.2)) c).2 = pcolLen c.2 := by
    intro c
    show pcolLen (if isDateCol c.1 then ((c.1 : String), dateCoerceCol f
      (stripCol c.2)) else (c.1, stripCol c.2)).2 = pcolLen c.2
    by_cases h : isDateCol c.1 <;> simp [h, pcolLen_date, pcolLen_strip]
  have hd : ntEmpty ⟨t1.cols.map
      ((fun c => if isDateCol c.1 then (c.1, dateCoerceCol f c.2) else c) ∘
        fun c => (c.1, stripCol c.2))⟩ = false := by
    rw [ntEmpty_map hlen2 t1]
    exact he1
  unfold coerce_numerics
  rw [if_neg (by simp [hd])]
  congr 1
  rw [List.map_map, List.map_map]
  apply List.map_congr_left
  intro c _
  show (fun c2 => if isNumCol c2.1 then (c2.1, numCoerceCol f c2.2) else c2)
      ((fun c1 => if isDateCol c1.1 then (c1.1, dateCoerceCol f c1.2) else c1)
        ((c.1, stripCol c.2))) = colTransform f c
  by_cases h1 : isDateCol c.1 <;> by_cases h2 : isNumCol c.1 <;>
    simp [colTransform, h1, h2]

/-- **C8 (amended)** `normalize_dataframe` is idempotent on tables whose
once-normalized column names are canonical — pairwise distinct (otherwise the
second pass raises in `strip_whitespace`, see the counterexample),
snake_case-stable and alias-stable (otherwise the second pass renames them
again): the first pass succeeds and its output is a fixed point. -/
theorem claim_C8 (f : CoerceFns) (t : NTable)
    (hnd : ((normalize_columns t).cols.map Prod.fst).Nodup)
    (hstable : ∀ n ∈ (normalize_columns t).cols.map Prod.fst,
      to_snake_case n = n ∧ aliasApply n = n) :
    ∃ y, normalize_dataframe f t = some y ∧ normalize_dataframe f y = some y := by
  by_cases he : ntEmpty t = true
  · refine ⟨t, ?_, ?_⟩ <;>
    · unfold normalize_dataframe
      rw [if_pos he]
  · have he' : ¬ ntEmpty t = true := he
    by_cases he1 : ntEmpty (normalize_columns t) = true
    · refine ⟨normalize_columns t, ?_, ?_⟩
      · unfold normalize_dataframe
        rw [if_neg he']
        unfold strip_whitespace
        rw [if_pos he1]
        show some (coerce_numerics f (coerce_dates f (normalize_columns t))) = _
        unfold coerce_dates
        rw [if_pos he1]
        unfold coerce_numerics
        rw [if_pos he1]
      · unfold normalize_dataframe
        rw [if_pos he1]
    · have he1' : ntEmpty (normalize_columns t) = false := by
        simpa using he1
      refine ⟨⟨(normalize_columns t).cols.map (colTransform f)⟩, ?_, ?_⟩
      · unfold normalize_dataframe
        rw [if_neg he']
        unfold strip_whitespace
        rw [if_neg he1, if_pos hnd]
        show some (coerce_numerics f (coerce_dates f
          ⟨(normalize_columns t).cols.map fun c => (c.1, stripCol c.2)⟩)) = _
        rw [coerce_chain f (normalize_columns t) he1']
      · -- the computed frame is a fixed point of the whole pipeline
        have hnames : (((normalize_columns t).cols.map (colTransform f)).map
            Prod.fst) = (normalize_columns t).cols.map Prod.fst := by
          rw [List.map_map]
          apply List.map_congr_left
          intro c _
          exact colTransform_fst f c
        have hey : ntEmpty ⟨(normalize_columns t).cols.map (colTransform f)⟩ =
            false := by
          rw [ntEmpty_map (colTransform_len f) (normalize_columns t)]
          exact he1'
        have hndy : ((⟨(normalize_columns t).cols.map (colTransform f)⟩ :
            NTable).cols.map Prod.fst).Nodup := by
          show (((normalize_columns t).cols.map (colTransform f)).map
            Prod.fst).Nodup
          rw [hnames]
          exact hnd
        have hkeep := normalize_columns_keep t (by simpa using he')
        have hnc : normalize_columns
            ⟨(normalize_columns t).cols.map (colTransform f)⟩ =
            ⟨(normalize_columns t).cols.map (colTransform f)⟩ := by
          apply normalize_columns_fixed _ hey hndy
          · intro n hn
            rw [show ((⟨(normalize_columns t).cols.map (colTransform f)⟩ :
                NTable).cols.map Prod.fst) =
              (normalize_columns t).cols.map Prod.fst from hnames] at hn
            exact (hstable n hn).1
          · intro n hn
            rw [show ((⟨(normalize_columns t).cols.map (colTransform f)⟩ :
                NTable).cols.map Prod.fst) =
              (normalize_columns t).cols.map Prod.fst from hnames] at hn
            exact (hstable n hn).2
          · intro n hn
            rw [show ((⟨(normalize_columns t).cols.map (colTransform f)⟩ :
                NTable).cols.map Prod.fst) =
              (normalize_columns t).cols.map Prod.fst from hnames] at hn
            exact hkeep n hn
        unfold normalize_dataframe
        rw [if_neg (by simp [hey]), hnc]
        unfold strip_whitespace
        rw [if_neg (by simp [hey]), if_pos hndy]
        have hstripy : ((⟨(normalize_columns t).cols.map (colTransform f)⟩ :
            NTable).cols.map fun c => (c.1, stripCol c.2)) =
            (normalize_columns t).cols.map (colTransform f) := by
          show (((normalize_columns t).cols.map (colTransform f)).map
            fun c => (c.1, stripCol c.2)) = _
          rw [List.map_map]
          apply List.map_congr_left
          intro c _
          show ((colTransform f c).1, stripCol (colTransform f c).2) =
            colTransform f c
          rw [(colTransform_fixed f c).1]
        rw [hstripy]
        show some (coerce_numerics f (coerce_dates f
          ⟨(normalize_columns t).cols.map (colTransform f)⟩)) = _
        have hcd : coerce_dates f
            ⟨(normalize_columns t).cols.map (colTransform f)⟩ =
            ⟨(normalize_columns t).cols.map (colTransform f)⟩ := by
          unfold coerce_dates
          rw [if_neg (by simp [hey])]
          congr 1
          show (((normalize_columns t).cols.map (colTransform f)).map
            fun c => if isDateCol c.1 then (c.1, dateCoerceCol f c.2) else c) = _
          rw [List.map_map]
          conv_rhs => rw [← List.map_id ((normalize_columns t).cols.map
            (colTransform f)), List.map_map]
          apply List.map_congr_left
          intro c _
          show (if isDateCol (colTransform f c).1 then
              ((colTransform f c).1, dateCoerceCol f (colTransform f c).2)
            else colTransform f c) = colTransform f c
          rw [colTransform_fst f c]
          by_cases h : isDateCol c.1
          · rw [if_pos h, (colTransform_fixed f c).2.1 h]
            rw [show c.1 = (colTransform f c).1 from (colTransform_fst f c).symm]
          · rw [if_neg h]
        have hcn : coerce_numerics f
            ⟨(normalize_columns t).cols.map (colTransform f)⟩ =
            ⟨(normalize_columns t).cols.map (colTransform f)⟩ := by
          unfold coerce_numerics
          rw [if_neg (by simp [hey])]
          congr 1
          show (((normalize_columns t).cols.map (colTransform f)).map
            fun c => if isNumCol c.1 then (c.1, numCoerceCol f c.2) else c) = _
          rw [List.map_map]
          conv_rhs => rw [← List.map_id ((normalize_columns t).cols.map
            (colTransform f)), List.map_map]
          apply List.map_congr_left
          intro c _
          show (if isNumCol (colTransform f c).1 then
              ((colTransform f c).1, numCoerceCol f (colTransform f c).2)
            else colTransform f c) = colTransform f c
          rw [colTransform_fst f c]
          by_cases h : isNumCol c.1
          · rw [if_pos h, (colTransform_fixed f c).2.2 h]
            rw [show c.1 = (colTransform f c).1 from (colTransform_fst f c).symm]
          · rw [if_neg h]
        rw [hcd, hcn]

/-- Witness for C8 at a one-column raw table. -/
theorem claim_C8_witness :
    ∃ y, normalize_dataframe
        ⟨fun _ => none, fun _ => none, fun _ => none, fun _ => none⟩
        ⟨[("Deal Stage", PCol.obj [some " x "])]⟩ = some y ∧
      normalize_dataframe
        ⟨fun _ => none, fun _ => none, fun _ => none, fun _ => none⟩ y = some y :=
  claim_C8 ⟨fun _ => none, fun _ => none, fun _ => none, fun _ => none⟩
    ⟨[("Deal Stage", PCol.obj [some " x "])]⟩ (by decide) (by decide)
